import Mathlib

/-!
Verification of the wrap-tz-contracts deployment core (src/deploy.py):
the metadata encoder, the three storage builders and the five-step
deployment sequencer.  Python strings are modelled as lists of
characters, Python bytes as lists of naturals below 256, Python dicts
as association lists in insertion order, and the fallible parts
(json.dumps on a non-serializable object, network origination) as
Option / Except values.
-/

set_option maxRecDepth 100000

namespace WrapDeploy

/-- Python strings, modelled as their list of unicode code points. -/
abbrev Str := List Char

/-! ## Hexadecimal encoding: models bytes.hex() (lowercase) -/

/-- Lowercase hexadecimal digit for a value below 16. -/
def hexDigitChar : Nat → Char
  | 0 => '0' | 1 => '1' | 2 => '2' | 3 => '3' | 4 => '4'
  | 5 => '5' | 6 => '6' | 7 => '7' | 8 => '8' | 9 => '9'
  | 10 => 'a' | 11 => 'b' | 12 => 'c' | 13 => 'd' | 14 => 'e'
  | _ => 'f'

/-- Two lowercase hex digits of one byte: models the per-byte part of bytes.hex(). -/
def byteHex (b : Nat) : Str := [hexDigitChar (b / 16), hexDigitChar (b % 16)]

/-- Models Python bytes.hex(): lowercase hex, two digits per byte. -/
def bytesHex (bs : List Nat) : Str := bs.flatMap byteHex

/-- Value of one hex digit character (upper or lower case accepted). -/
def hexDigitVal (c : Char) : Option Nat :=
  if '0' ≤ c ∧ c ≤ '9' then some (c.toNat - 48)
  else if 'a' ≤ c ∧ c ≤ 'f' then some (c.toNat - 87)
  else if 'A' ≤ c ∧ c ≤ 'F' then some (c.toNat - 55)
  else none

/-- Models bytes.fromhex: decodes pairs of hex digits into bytes. -/
def hexDecode : Str → Option (List Nat)
  | [] => some []
  | [_] => none
  | c1 :: c2 :: rest =>
    (hexDigitVal c1).bind fun h =>
      (hexDigitVal c2).bind fun l =>
        (hexDecode rest).map fun bs => (h * 16 + l) :: bs

/-! ## UTF-8: models str.encode() and bytes.decode() -/

/-- UTF-8 encoding of a single code point: models the per-character part of str.encode(). -/
def utf8EncodeChar (c : Char) : List Nat :=
  let v := c.toNat
  if v < 0x80 then [v]
  else if v < 0x800 then [0xC0 + v / 64, 0x80 + v % 64]
  else if v < 0x10000 then [0xE0 + v / 4096, 0x80 + v / 64 % 64, 0x80 + v % 64]
  else [0xF0 + v / 262144, 0x80 + v / 4096 % 64, 0x80 + v / 64 % 64, 0x80 + v % 64]

/-- Models Python str.encode(): UTF-8 bytes of a string. -/
def utf8Encode (s : Str) : List Nat := s.flatMap utf8EncodeChar

/-- Decodes a two-byte UTF-8 sequence given its lead byte, rejecting bad
continuation bytes and overlong forms. -/
def utf8D2 (b0 : Nat) : List Nat → Option (Nat × List Nat)
  | b1 :: bs =>
    if 0x80 ≤ b1 ∧ b1 < 0xC0 then
      if 0x80 ≤ (b0 - 0xC0) * 64 + (b1 - 0x80) then
        some ((b0 - 0xC0) * 64 + (b1 - 0x80), bs)
      else none
    else none
  | _ => none

/-- Decodes a three-byte UTF-8 sequence given its lead byte, rejecting bad
continuation bytes, overlong forms and surrogates. -/
def utf8D3 (b0 : Nat) : List Nat → Option (Nat × List Nat)
  | b1 :: b2 :: bs =>
    if (0x80 ≤ b1 ∧ b1 < 0xC0) ∧ (0x80 ≤ b2 ∧ b2 < 0xC0) then
      if 0x800 ≤ (b0 - 0xE0) * 4096 + (b1 - 0x80) * 64 + (b2 - 0x80) ∧
          ((b0 - 0xE0) * 4096 + (b1 - 0x80) * 64 + (b2 - 0x80) < 0xD800 ∨
            0xE000 ≤ (b0 - 0xE0) * 4096 + (b1 - 0x80) * 64 + (b2 - 0x80)) then
        some ((b0 - 0xE0) * 4096 + (b1 - 0x80) * 64 + (b2 - 0x80), bs)
      else none
    else none
  | _ => none

/-- Decodes a four-byte UTF-8 sequence given its lead byte, rejecting bad
continuation bytes, overlong forms and out-of-range code points. -/
def utf8D4 (b0 : Nat) : List Nat → Option (Nat × List Nat)
  | b1 :: b2 :: b3 :: bs =>
    if (0x80 ≤ b1 ∧ b1 < 0xC0) ∧ (0x80 ≤ b2 ∧ b2 < 0xC0) ∧ (0x80 ≤ b3 ∧ b3 < 0xC0) then
      if 0x10000 ≤ (b0 - 0xF0) * 262144 + (b1 - 0x80) * 4096 + (b2 - 0x80) * 64 + (b3 - 0x80) ∧
          (b0 - 0xF0) * 262144 + (b1 - 0x80) * 4096 + (b2 - 0x80) * 64 + (b3 - 0x80) <
            0x110000 then
        some ((b0 - 0xF0) * 262144 + (b1 - 0x80) * 4096 + (b2 - 0x80) * 64 + (b3 - 0x80), bs)
      else none
    else none
  | _ => none

/-- Decodes one UTF-8 code point: its value and the remaining bytes. -/
def utf8D1 : List Nat → Option (Nat × List Nat)
  | [] => none
  | b0 :: bs =>
    if b0 < 0x80 then some (b0, bs)
    else if b0 < 0xC0 then none
    else if b0 < 0xE0 then utf8D2 b0 bs
    else if b0 < 0xF0 then utf8D3 b0 bs
    else if b0 < 0xF8 then utf8D4 b0 bs
    else none

/-- Fuel-driven UTF-8 decoding loop; the byte count is always enough fuel. -/
def utf8DecodeF : Nat → List Nat → Option Str
  | _, [] => some []
  | 0, _ :: _ => none
  | fuel + 1, b0 :: bs =>
    (utf8D1 (b0 :: bs)).bind fun p =>
      (utf8DecodeF fuel p.2).map fun s => Char.ofNat p.1 :: s

/-- Models Python bytes.decode(): UTF-8 decoding, none on malformed input. -/
def utf8Decode (bs : List Nat) : Option Str := utf8DecodeF bs.length bs

/-! ## Decimal representation: models str(int) and JSON integer output -/

/-- Decimal digits of a natural, least significant first; fuel-driven so that
it reduces in the kernel (fuel at least the number itself always suffices). -/
def natDigitsRevF : Nat → Nat → List Nat
  | 0, _ => []
  | fuel + 1, n => if n = 0 then [] else n % 10 :: natDigitsRevF fuel (n / 10)

/-- Decimal digit character. -/
def digitChar (d : Nat) : Char := hexDigitChar (d % 10)

/-- Decimal representation of a natural number, as Python str(n) produces it. -/
def natRepr (n : Nat) : Str :=
  if n = 0 then ['0'] else ((natDigitsRevF n n).reverse).map digitChar

/-- Decimal representation of an integer, as Python str(i) / json.dumps(i) produce it. -/
def intRepr : Int → Str
  | Int.ofNat n => natRepr n
  | Int.negSucc n => '-' :: natRepr (n + 1)

/-! ## JSON-like Python values

The argument of _metadata_encode is an arbitrary Python object.  The
serializable leaves are strings, integers, booleans and None; lists and
string-keyed dicts are the containers used by the repository; `other`
stands for any Python object json.dumps cannot serialize. -/

mutual
inductive PyVal : Type where
  | str (s : Str)
  | int (n : Int)
  | bool (b : Bool)
  | null
  | other (name : Str)
  | list (items : PyList)
  | dict (entries : PyDict)
  deriving DecidableEq
inductive PyList : Type where
  | nil
  | cons (hd : PyVal) (tl : PyList)
  deriving DecidableEq
inductive PyDict : Type where
  | nil
  | cons (key : Str) (val : PyVal) (tl : PyDict)
  deriving DecidableEq
end

/-- Four lowercase hex digits, as Python "\u%04x" formatting produces. -/
def hex4 (n : Nat) : Str :=
  [hexDigitChar (n / 4096 % 16), hexDigitChar (n / 256 % 16),
   hexDigitChar (n / 16 % 16), hexDigitChar (n % 16)]

/-- JSON string escaping of one character, exactly as Python's
json.encoder ensure_ascii encoder does: named escapes for quote,
backslash and the five short control characters, printable ASCII
verbatim, everything else as \uXXXX (with a surrogate pair above
0xFFFF). -/
def escapeChar (c : Char) : Str :=
  if c = '"' then ['\\', '"']
  else if c = '\\' then ['\\', '\\']
  else if c = '\x08' then ['\\', 'b']
  else if c = '\x09' then ['\\', 't']
  else if c = '\x0a' then ['\\', 'n']
  else if c = '\x0c' then ['\\', 'f']
  else if c = '\x0d' then ['\\', 'r']
  else if 0x20 ≤ c.toNat ∧ c.toNat ≤ 0x7E then [c]
  else if c.toNat < 0x10000 then '\\' :: 'u' :: hex4 c.toNat
  else
    let v := c.toNat - 0x10000
    ('\\' :: 'u' :: hex4 (0xD800 + v / 1024)) ++ ('\\' :: 'u' :: hex4 (0xDC00 + v % 1024))

/-- JSON escaping of a whole string body. -/
def escapeStr (s : Str) : Str := s.flatMap escapeChar

/-- Indentation spaces. -/
def spaces (n : Nat) : Str := List.replicate n ' '

/-- Left and right curly brace characters. -/
def lbr : Char := Char.ofNat 123
def rbr : Char := Char.ofNat 125

mutual
/-- Models json.dumps(v, indent=2) at nesting indentation ind: produces
the serialized text, or none when a non-serializable object occurs
(Python raises TypeError there). -/
def dumps (ind : Nat) : PyVal → Option Str
  | .str s => some ('"' :: escapeStr s ++ ['"'])
  | .int n => some (intRepr n)
  | .bool true => some ['t', 'r', 'u', 'e']
  | .bool false => some ['f', 'a', 'l', 's', 'e']
  | .null => some ['n', 'u', 'l', 'l']
  | .other _ => none
  | .list l =>
    match l with
    | .nil => some ['[', ']']
    | .cons _ _ =>
      (dumpsItems (ind + 2) l).map fun parts =>
        '[' :: '\n' :: parts ++ '\n' :: spaces ind ++ [']']
  | .dict d =>
    match d with
    | .nil => some [lbr, rbr]
    | .cons _ _ _ =>
      (dumpsEntries (ind + 2) d).map fun parts =>
        lbr :: '\n' :: parts ++ '\n' :: spaces ind ++ [rbr]

/-- The comma/newline separated items of a non-empty JSON array at
indentation ind, each on its own indented line. -/
def dumpsItems (ind : Nat) : PyList → Option Str
  | .nil => some []
  | .cons v vs =>
    (dumps ind v).bind fun s =>
      match vs with
      | .nil => some (spaces ind ++ s)
      | .cons _ _ =>
        (dumpsItems ind vs).map fun rest =>
          spaces ind ++ s ++ ',' :: '\n' :: rest

/-- The comma/newline separated members of a non-empty JSON object at
indentation ind, each on its own indented line as "key": value. -/
def dumpsEntries (ind : Nat) : PyDict → Option Str
  | .nil => some []
  | .cons k v es =>
    (dumps ind v).bind fun s =>
      match es with
      | .nil => some (spaces ind ++ '"' :: escapeStr k ++ '"' :: ':' :: ' ' :: s)
      | .cons _ _ _ =>
        (dumpsEntries ind es).map fun rest =>
          spaces ind ++ '"' :: escapeStr k ++ '"' :: ':' :: ' ' :: s ++ ',' :: '\n' :: rest
end

deriving instance DecidableEq for Except

/-- The metadata encoding error: json.dumps raised on a value it cannot
serialize (Python's TypeError, the spec's EncodingError). -/
inductive EncodingError : Type where
  | notSerializable
  deriving DecidableEq

/-- The literal storage pointer "tezos-storage:content". -/
def tezosStorageContent : Str :=
  ['t', 'e', 'z', 'o', 's', '-', 's', 't', 'o', 'r', 'a', 'g', 'e', ':',
   'c', 'o', 'n', 't', 'e', 'n', 't']

/-- The key "content" of the metadata mapping. -/
def contentKey : Str := ['c', 'o', 'n', 't', 'e', 'n', 't']

/-- Models _metadata_encode from src/deploy.py:
meta_content = json.dumps(content, indent=2).encode().hex(),
meta_uri = str.encode("tezos-storage:content").hex(),
returning the mapping from "" to meta_uri and "content" to meta_content. -/
def metadata_encode (content : PyVal) : Except EncodingError (List (Str × Str)) :=
  (dumps 0 content).elim (.error .notSerializable) fun s =>
    .ok [([], bytesHex (utf8Encode tezosStorageContent)), (contentKey, bytesHex (utf8Encode s))]

/-! ## A JSON reader, modelling json.loads for the round-trip claim.
The repository never decodes its metadata; this reader follows the
spec's words ("parsing the resulting bytes as JSON") so the round-trip
can be stated.  Numbers are integers, matching the integer-only output
of the document model. -/

/-- JSON insignificant whitespace. -/
def isJsonWs (c : Char) : Bool := c = ' ' || c = '\n' || c = '\t' || c = '\r'

/-- Drop leading JSON whitespace. -/
def skipWs : Str → Str
  | [] => []
  | c :: cs => if isJsonWs c then skipWs cs else c :: cs

/-- Value of four hex digits. -/
def hex4Val (a b c d : Char) : Option Nat :=
  (hexDigitVal a).bind fun x =>
    (hexDigitVal b).bind fun y =>
      (hexDigitVal c).bind fun z =>
        (hexDigitVal d).bind fun w =>
          some (((x * 16 + y) * 16 + z) * 16 + w)

/-- The single-character value of a named escape letter, none for letters
that do not name an escape. -/
def escLetter (e : Char) : Option Char :=
  if e = '"' then some '"'
  else if e = '\\' then some '\\'
  else if e = '/' then some '/'
  else if e = 'b' then some '\x08'
  else if e = 'f' then some '\x0c'
  else if e = 'n' then some '\x0a'
  else if e = 'r' then some '\x0d'
  else if e = 't' then some '\x09'
  else none

/-- Applies f to the head and tail of the input, none on empty input. -/
def withHead (f : Char → Str → Option α) : Str → Option α
  | [] => none
  | c :: cs => f c cs

/-- Reads the tail of a low-surrogate escape (backslash, u, four hex
digits) and combines it with the high surrogate value n. -/
def readULow (n : Nat) : Str → Option (Char × Str)
  | e2 :: u2 :: h5 :: h6 :: h7 :: h8 :: r =>
    if e2 = '\\' ∧ u2 = 'u' then
      (hex4Val h5 h6 h7 h8).bind fun m =>
        if 0xDC00 ≤ m ∧ m < 0xE000 then
          some (Char.ofNat (0x10000 + (n - 0xD800) * 1024 + (m - 0xDC00)), r)
        else none
    else none
  | _ => none

/-- Reads the four hex digits of a unicode escape, continuing into a
second escape when they denote a high surrogate. -/
def readU : Str → Option (Char × Str)
  | h1 :: h2 :: h3 :: h4 :: r =>
    (hex4Val h1 h2 h3 h4).bind fun n =>
      if n < 0xD800 ∨ 0xE000 ≤ n then some (Char.ofNat n, r)
      else if n < 0xDC00 then readULow n r
      else none
  | _ => none

/-- Reads the body of a JSON string after its opening quote, handling
the escape sequences (including surrogate pairs) and stopping at the
closing quote; returns the decoded body and the rest of the input.
Fuel-driven; one unit of fuel per decoded character always suffices. -/
def readStringBody : Nat → Str → Option (Str × Str)
  | 0, _ => none
  | fuel + 1, cs =>
    withHead (fun c cs' =>
      if c = '"' then some ([], cs')
      else if c = '\\' then
        withHead (fun e cs'' =>
          if e = 'u' then
            (readU cs'').bind fun p =>
              (readStringBody fuel p.2).map fun q => (p.1 :: q.1, q.2)
          else
            (escLetter e).bind fun ch =>
              (readStringBody fuel cs'').map fun q => (ch :: q.1, q.2)) cs'
      else if c.toNat < 0x20 then none
      else (readStringBody fuel cs').map fun q => (c :: q.1, q.2)) cs

/-- Decimal digit test on characters. -/
def isDigitChar (c : Char) : Bool := decide (48 ≤ c.toNat ∧ c.toNat ≤ 57)

/-- Splits leading decimal digits from the input. -/
def takeDigits : Str → Str × Str
  | [] => ([], [])
  | c :: cs =>
    if isDigitChar c then
      let p := takeDigits cs
      (c :: p.1, p.2)
    else ([], c :: cs)

/-- Numeric value of a string of decimal digit characters, most
significant first. -/
def digitsVal (ds : Str) : Nat := ds.foldl (fun a c => a * 10 + (c.toNat - 48)) 0

/-- Reads a JSON integer token (optional minus sign, then digits). -/
def readIntToken : Str → Option (Int × Str)
  | [] => none
  | c :: cs =>
    if c = '-' then
      match takeDigits cs with
      | ([], _) => none
      | (ds, rest) => some (-(digitsVal ds : Int), rest)
    else
      match takeDigits (c :: cs) with
      | ([], _) => none
      | (ds, rest) => some ((digitsVal ds : Int), rest)

/-- Tests whether the input starts with the three remaining letters of
the literal null, returning the rest. -/
def tailLit3 (a b c : Char) : Str → Option Str
  | x :: y :: z :: r => if x = a ∧ y = b ∧ z = c then some r else none
  | _ => none

/-- Tests whether the input starts with the four remaining letters of
the literal false, returning the rest. -/
def tailLit4 (a b c d : Char) : Str → Option Str
  | x :: y :: z :: w :: r => if x = a ∧ y = b ∧ z = c ∧ w = d then some r else none
  | _ => none

mutual
/-- Reads one JSON value after skipping whitespace; fuel-driven, with
the input length always sufficient fuel. -/
def readValue : Nat → Str → Option (PyVal × Str)
  | 0, _ => none
  | fuel + 1, cs =>
    withHead (fun c t =>
      if c = 'n' then
        (tailLit3 'u' 'l' 'l' t).map fun r => (.null, r)
      else if c = 't' then
        (tailLit3 'r' 'u' 'e' t).map fun r => (.bool true, r)
      else if c = 'f' then
        (tailLit4 'a' 'l' 's' 'e' t).map fun r => (.bool false, r)
      else if c = '"' then
        (readStringBody t.length t).map fun p => (.str p.1, p.2)
      else if c = '[' then
        withHead (fun c' r =>
          if c' = ']' then some (.list .nil, r)
          else (readItems fuel t).map fun p => (.list p.1, p.2)) (skipWs t)
      else if c = lbr then
        withHead (fun c' r =>
          if c' = rbr then some (.dict .nil, r)
          else (readEntries fuel t).map fun p => (.dict p.1, p.2)) (skipWs t)
      else
        (readIntToken (c :: t)).map fun p => (.int p.1, p.2)) (skipWs cs)

/-- Reads the items of a non-empty JSON array up to and including the
closing bracket. -/
def readItems : Nat → Str → Option (PyList × Str)
  | 0, _ => none
  | fuel + 1, cs =>
    (readValue fuel cs).bind fun pv =>
      withHead (fun c r2 =>
        if c = ',' then (readItems fuel r2).map fun p => (.cons pv.1 p.1, p.2)
        else if c = ']' then some (.cons pv.1 .nil, r2)
        else none) (skipWs pv.2)

/-- Reads the members of a non-empty JSON object up to and including
the closing brace. -/
def readEntries : Nat → Str → Option (PyDict × Str)
  | 0, _ => none
  | fuel + 1, cs =>
    withHead (fun c0 r =>
      if c0 = '"' then
        (readStringBody r.length r).bind fun pk =>
          withHead (fun c1 r2 =>
            if c1 = ':' then
              (readValue fuel r2).bind fun pv =>
                withHead (fun c2 r4 =>
                  if c2 = ',' then (readEntries fuel r4).map fun p => (.cons pk.1 pv.1 p.1, p.2)
                  else if c2 = rbr then some (.cons pk.1 pv.1 .nil, r4)
                  else none) (skipWs pv.2)
            else none) (skipWs pk.2)
      else none) (skipWs cs)
end

/-- Models json.loads on text: reads one value and requires only
whitespace to remain. -/
def loads (s : Str) : Option PyVal :=
  (readValue s.length s).bind fun pv =>
    if skipWs pv.2 = [] then some pv.1 else none

/-- Models json.loads on bytes: UTF-8 decode, then parse. -/
def loadsBytes (bs : List Nat) : Option PyVal := (utf8Decode bs).bind loads

/-- The characters that can start a serialized JSON value. -/
def valueStart (c : Char) : Prop :=
  c = '"' ∨ c = '-' ∨ isDigitChar c = true ∨ c = 't' ∨ c = 'f' ∨ c = 'n' ∨
    c = '[' ∨ c = lbr

/-- Value of a least-significant-first digit list. -/
def lsdVal : List Nat → Nat
  | [] => 0
  | d :: ds => d + 10 * lsdVal ds

/-- The input may continue after a number token only with a non-digit. -/
def digitStop : Str → Prop
  | [] => True
  | c :: _ => isDigitChar c = false

/-! ## Serializability predicate for the metadata encoder -/

mutual
/-- True when the document contains a leaf json.dumps cannot serialize. -/
def hasOther : PyVal → Bool
  | .other _ => true
  | .list l => hasOtherL l
  | .dict d => hasOtherD d
  | _ => false
def hasOtherL : PyList → Bool
  | .nil => false
  | .cons v vs => hasOther v || hasOtherL vs
def hasOtherD : PyDict → Bool
  | .nil => false
  | .cons _ v es => hasOther v || hasOtherD es
end

mutual
/-- Structural weight of a document, used as an induction measure. -/
def pweight : PyVal → Nat
  | .list l => 1 + pweightL l
  | .dict d => 1 + pweightD d
  | _ => 1
def pweightL : PyList → Nat
  | .nil => 1
  | .cons v vs => 1 + pweight v + pweightL vs
def pweightD : PyDict → Nat
  | .nil => 1
  | .cons _ v es => 1 + pweight v + pweightD es
end

/-! ## Deployment layer: the storage builders and sequencer of src/deploy.py -/

/-- The characters of a string literal. -/
def strL (s : String) : Str := s.data

/-- Models s.encode().hex() on a Python string. -/
def strHex (s : Str) : Str := bytesHex (utf8Encode s)

/-- A caller-supplied token specification (TokenType in src/deploy.py). -/
structure TokenType where
  eth_contract : Str
  eth_symbol : Str
  symbol : Str
  name : Str
  decimals : Int
  deriving DecidableEq

/-- The extras mapping of one FA2 token_metadata entry: each field of the
spec hex-encoded, decimals through str(). -/
structure Fa2TokenExtras where
  decimals : Str
  eth_contract : Str
  eth_symbol : Str
  name : Str
  symbol : Str
  deriving DecidableEq

/-- One FA2 token_metadata entry. -/
structure Fa2TokenMeta where
  token_id : Nat
  extras : Fa2TokenExtras
  deriving DecidableEq

/-- The admin part of the FA2 initial storage. -/
structure Fa2Admin where
  admin : Str
  pending_admin : Option Str
  paused : List Nat
  deriving DecidableEq

/-- The assets part of the FA2 initial storage. -/
structure Fa2Assets where
  ledger : List (Str × Nat)
  operators : List Str
  token_metadata : List (Nat × Fa2TokenMeta)
  token_total_supply : List (Nat × Nat)
  deriving DecidableEq

/-- The FA2 initial storage record built by Deploy.fa2. -/
structure Fa2Storage where
  admin : Fa2Admin
  assets : Fa2Assets
  metadata : List (Str × Str)
  deriving DecidableEq

/-- The token_metadata dict of Deploy.fa2: one entry per enumerate position
k, holding token_id k and the hex-encoded spec fields. -/
def fa2_token_metadata (tokens : List TokenType) : List (Nat × Fa2TokenMeta) :=
  tokens.enum.map fun p =>
    (p.1, { token_id := p.1,
            extras := { decimals := strHex (intRepr p.2.decimals),
                        eth_contract := strHex p.2.eth_contract,
                        eth_symbol := strHex p.2.eth_symbol,
                        name := strHex p.2.name,
                        symbol := strHex p.2.symbol } })

/-- The token_total_supply dict of Deploy.fa2: every enumerate position to 0. -/
def fa2_token_total_supply (tokens : List TokenType) : List (Nat × Nat) :=
  tokens.enum.map fun p => (p.1, 0)

/-- The metadata document of Deploy.fa2, with the four compiled views
supplied by the view compiler. -/
def fa2Doc (views : PyList) : PyVal :=
  .dict (.cons (strL "interfaces")
    (.list (.cons (.str (strL "TZIP-12")) (.cons (.str (strL "TZIP-16")) .nil)))
    (.cons (strL "name") (.str (strL "Wrap protocol FA2 tokens"))
    (.cons (strL "homepage") (.str (strL "https://github.com/bender-labs/wrap-tz-contracts"))
    (.cons (strL "license") (.dict (.cons (strL "name") (.str (strL "MIT")) .nil))
    (.cons (strL "permissions")
      (.dict (.cons (strL "operator") (.str (strL "owner-or-operator-transfer"))
        (.cons (strL "receiver") (.str (strL "owner-no-hook"))
        (.cons (strL "sender") (.str (strL "owner-no-hook"))
        (.cons (strL "custom") (.dict (.cons (strL "tag") (.str (strL "PAUSABLE_TOKENS")) .nil))
          .nil)))))
    (.cons (strL "views") (.list views) .nil))))))

/-- The initial storage Deploy.fa2 passes to origination. -/
def fa2_storage (pkh : Str) (views : PyList) (tokens : List TokenType) :
    Except EncodingError Fa2Storage :=
  (metadata_encode (fa2Doc views)).map fun meta =>
    { admin := { admin := pkh, pending_admin := none, paused := [] },
      assets := { ledger := [], operators := [],
                  token_metadata := fa2_token_metadata tokens,
                  token_total_supply := fa2_token_total_supply tokens },
      metadata := meta }

/-- Insertion into a Python dict: an existing key keeps its position and
gets the new value, a new key is appended. -/
def dictInsert [DecidableEq α] (m : List (α × β)) (k : α) (v : β) : List (α × β) :=
  if m.any fun p => decide (p.1 = k) then
    m.map fun p => if p.1 = k then (k, v) else p
  else m ++ [(k, v)]

/-- A Python dict built by inserting the pairs in order (dict comprehension
semantics: later values overwrite earlier ones). -/
def pyDictOf [DecidableEq α] (l : List (α × β)) : List (α × β) :=
  l.foldl (fun m p => dictInsert m p.1 p.2) []

/-- Association-list lookup (first entry wins). -/
def alookup [DecidableEq α] : List (α × β) → α → Option β
  | [], _ => none
  | p :: ps, k => if p.1 = k then some p.2 else alookup ps k

/-- The tokens dict of Deploy._deploy_minter: each spec's eth_contract with
its first two characters dropped, mapped to the fa2 address and the spec's
enumerate position. -/
def minter_token_metadata (fa2_contract : Str) (tokens : List TokenType) :
    List (Str × (Str × Nat)) :=
  pyDictOf (tokens.enum.map fun p => (p.2.eth_contract.drop 2, (fa2_contract, p.1)))

/-- The metadata document of Deploy._deploy_minter. -/
def minterDoc : PyVal :=
  .dict (.cons (strL "name") (.str (strL "Wrap protocol minter contract"))
    (.cons (strL "homepage") (.str (strL "https://github.com/bender-labs/wrap-tz-contracts"))
    (.cons (strL "license") (.dict (.cons (strL "name") (.str (strL "MIT")) .nil)) .nil)))

/-- The admin part of the minter initial storage. -/
structure MinterAdmin where
  administrator : Str
  signer : Str
  paused : Bool
  deriving DecidableEq

/-- The assets part of the minter initial storage. -/
structure MinterAssets where
  tokens : List (Str × (Str × Nat))
  mints : List Str
  deriving DecidableEq

/-- The governance part of the minter initial storage. -/
structure MinterGovernance where
  contract : Str
  fees_contract : Str
  wrapping_fees : Nat
  unwrapping_fees : Nat
  deriving DecidableEq

/-- The minter initial storage record built by Deploy._deploy_minter. -/
structure MinterStorage where
  admin : MinterAdmin
  assets : MinterAssets
  governance : MinterGovernance
  metadata : List (Str × Str)
  deriving DecidableEq

/-- The initial storage Deploy._deploy_minter passes to origination. -/
def minter_storage (pkh quorum_contract : Str) (tokens : List TokenType)
    (fa2_contract : Str) : Except EncodingError MinterStorage :=
  (metadata_encode minterDoc).map fun metadata =>
    { admin := { administrator := pkh, signer := quorum_contract, paused := false },
      assets := { tokens := minter_token_metadata fa2_contract tokens, mints := [] },
      governance := { contract := pkh, fees_contract := pkh,
                      wrapping_fees := 100, unwrapping_fees := 100 },
      metadata := metadata }

/-- The metadata document of Deploy._deploy_quorum. -/
def quorumDoc : PyVal :=
  .dict (.cons (strL "name") (.str (strL "Wrap protocol quorum contract"))
    (.cons (strL "homepage") (.str (strL "https://github.com/bender-labs/wrap-tz-contracts"))
    (.cons (strL "license") (.dict (.cons (strL "name") (.str (strL "MIT")) .nil)) .nil)))

/-- The quorum initial storage record built by Deploy._deploy_quorum. -/
structure QuorumStorage where
  admin : Str
  threshold : Nat
  signers : List (Str × Str)
  metadata : List (Str × Str)
  deriving DecidableEq

/-- The initial storage Deploy._deploy_quorum passes to origination. -/
def quorum_storage (pkh : Str) (signers : List (Str × Str)) (threshold : Nat) :
    Except EncodingError QuorumStorage :=
  (metadata_encode quorumDoc).map fun metadata =>
    { admin := pkh, threshold := threshold, signers := signers, metadata := metadata }

/-- The externally visible actions Deploy.run performs, in order: the three
originations with their storages, then the FA2 admin change nominating the
minter, then the minter's admin confirmation. -/
inductive Event : Type where
  | originateFa2 (storage : Fa2Storage)
  | originateQuorum (storage : QuorumStorage)
  | originateMinter (storage : MinterStorage)
  | setFa2Admin (fa2 newAdmin : Str)
  | confirmMinterAdmin (minter fa2 : Str)
  deriving DecidableEq

/-- An error aborting the run: a metadata encoding failure from our own
code, or a network/signing failure surfaced by the client. -/
inductive RunError : Type where
  | encoding (e : EncodingError)
  | network (msg : Str)
  deriving DecidableEq

/-- The network's answers to the five effectful steps, supplied externally
(the origination client collaborator). -/
structure Oracle : Type where
  fa2Result : Except Str Str
  quorumResult : Except Str Str
  minterResult : Except Str Str
  setAdminResult : Except Str Unit
  confirmResult : Except Str Unit

/-- What a run of the sequencer produced: the actions attempted in order
and the addresses obtained so far. -/
structure RunState : Type where
  events : List Event
  fa2 : Option Str
  quorum : Option Str
  minter : Option Str
  deriving DecidableEq

/-- Models Deploy.run: straight-line sequencing of the five steps, each
feeding the next, aborting at the first failure with the partial state
(Python exception propagation; nothing is caught or retried). -/
def run (o : Oracle) (pkh : Str) (views : PyList) (signers : List (Str × Str))
    (tokens : List TokenType) (threshold : Nat) : RunState × Option RunError :=
  match fa2_storage pkh views tokens with
  | .error e => (⟨[], none, none, none⟩, some (.encoding e))
  | .ok fs =>
    match o.fa2Result with
    | .error m => (⟨[.originateFa2 fs], none, none, none⟩, some (.network m))
    | .ok fa2 =>
      match quorum_storage pkh signers threshold with
      | .error e => (⟨[.originateFa2 fs], some fa2, none, none⟩, some (.encoding e))
      | .ok qs =>
        match o.quorumResult with
        | .error m =>
          (⟨[.originateFa2 fs, .originateQuorum qs], some fa2, none, none⟩,
            some (.network m))
        | .ok quorum =>
          match minter_storage pkh quorum tokens fa2 with
          | .error e =>
            (⟨[.originateFa2 fs, .originateQuorum qs], some fa2, some quorum, none⟩,
              some (.encoding e))
          | .ok ms =>
            match o.minterResult with
            | .error m =>
              (⟨[.originateFa2 fs, .originateQuorum qs, .originateMinter ms],
                some fa2, some quorum, none⟩, some (.network m))
            | .ok minter =>
              match o.setAdminResult with
              | .error m =>
                (⟨[.originateFa2 fs, .originateQuorum qs, .originateMinter ms,
                    .setFa2Admin fa2 minter],
                  some fa2, some quorum, some minter⟩, some (.network m))
              | .ok _ =>
                match o.confirmResult with
                | .error m =>
                  (⟨[.originateFa2 fs, .originateQuorum qs, .originateMinter ms,
                      .setFa2Admin fa2 minter, .confirmMinterAdmin minter fa2],
                    some fa2, some quorum, some minter⟩, some (.network m))
                | .ok _ =>
                  (⟨[.originateFa2 fs, .originateQuorum qs, .originateMinter ms,
                      .setFa2Admin fa2 minter, .confirmMinterAdmin minter fa2],
                    some fa2, some quorum, some minter⟩, none)

/-- The association pairs of Deploy._deploy_minter's tokens dict
comprehension, before dict insertion-order semantics are applied. -/
def minterPairs (fa2_contract : Str) (tokens : List TokenType) :
    List (Str × (Str × Nat)) :=
  tokens.enum.map fun p => (p.2.eth_contract.drop 2, (fa2_contract, p.1))

/-- Extract the ok value of an encoding result, with a fallback. -/
def okOr (d : β) : Except EncodingError β → β
  | .ok b => b
  | .error _ => d

/-- The metadata mapping a document encodes to (empty on failure). -/
def metaOf (d : PyVal) : List (Str × Str) := okOr [] (metadata_encode d)

/-- A sample token specification. -/
def tokW : TokenType :=
  { eth_contract := strL "0xABC", eth_symbol := strL "ETH",
    symbol := strL "WETH", name := strL "Wrapped Ether", decimals := 18 }

/-- A second sample token specification with a distinct contract key. -/
def tokB : TokenType :=
  { eth_contract := strL "0xFF", eth_symbol := strL "FB",
    symbol := strL "WFB", name := strL "Wrapped FB", decimals := 2 }

/-- A sample token specification whose stripped contract key collides with
tokW's ("ABC"), though its first two characters differ. -/
def tokDup : TokenType :=
  { eth_contract := strL "zzABC", eth_symbol := strL "DUP",
    symbol := strL "WDUP", name := strL "Wrapped Dup", decimals := 0 }

/-- The FA2 storage produced for an empty token list and no views. -/
def fsW : Fa2Storage :=
  okOr { admin := { admin := [], pending_admin := none, paused := [] },
         assets := { ledger := [], operators := [],
                     token_metadata := [], token_total_supply := [] },
         metadata := [] }
    (fa2_storage [] PyList.nil [])

/-- The quorum storage produced for no signers and threshold 1. -/
def qsW : QuorumStorage :=
  okOr { admin := [], threshold := 1, signers := [], metadata := [] }
    (quorum_storage [] [] 1)

/-- The minter storage produced for an empty token list. -/
def msW : MinterStorage :=
  okOr { admin := { administrator := [], signer := [], paused := false },
         assets := { tokens := [], mints := [] },
         governance := { contract := [], fees_contract := [],
                         wrapping_fees := 100, unwrapping_fees := 100 },
         metadata := [] }
    (minter_storage [] (strL "Q") [] (strL "F"))

/-- A network oracle answering every step successfully. -/
def oW : Oracle :=
  { fa2Result := .ok (strL "F"), quorumResult := .ok (strL "Q"),
    minterResult := .ok (strL "M"), setAdminResult := .ok (),
    confirmResult := .ok () }

/-- A network oracle whose minter origination fails. -/
def oNoMinter : Oracle :=
  { fa2Result := .ok (strL "F"), quorumResult := .ok (strL "Q"),
    minterResult := .error (strL "boom"), setAdminResult := .ok (),
    confirmResult := .ok () }

/-! ## Digit and number lemmas -/

theorem char_ne_of_toNat {c d : Char} (h : c.toNat ≠ d.toNat) : c ≠ d :=
  fun he => h (he ▸ rfl)

theorem char_valid (c : Char) :
    c.toNat < 0xD800 ∨ (0xDFFF < c.toNat ∧ c.toNat < 0x110000) := c.valid

theorem hexDigitVal_hexDigitChar : ∀ d, d < 16 → hexDigitVal (hexDigitChar d) = some d := by
  decide

theorem isDigitChar_iff (c : Char) : isDigitChar c = true ↔ 48 ≤ c.toNat ∧ c.toNat ≤ 57 := by
  simp [isDigitChar]

theorem digitChar_isDigit (d : Nat) : isDigitChar (digitChar d) = true := by
  have h : ∀ e, e < 10 → isDigitChar (hexDigitChar e) = true := by decide
  exact h (d % 10) (Nat.mod_lt _ (by omega))

theorem digitChar_val (d : Nat) : (digitChar d).toNat - 48 = d % 10 := by
  have h : ∀ e, e < 10 → (hexDigitChar e).toNat - 48 = e := by decide
  exact h (d % 10) (Nat.mod_lt _ (by omega))

theorem natDigitsRevF_lt10 : ∀ fuel n d, d ∈ natDigitsRevF fuel n → d < 10 := by
  intro fuel
  induction fuel with
  | zero => intro n d h; simp [natDigitsRevF] at h
  | succ f ih =>
    intro n d h
    simp only [natDigitsRevF] at h
    by_cases hn : n = 0
    · simp [hn] at h
    · rw [if_neg hn] at h
      rcases List.mem_cons.mp h with h1 | h2
      · omega
      · exact ih _ _ h2

theorem lsdVal_natDigitsRevF : ∀ fuel n, n ≤ fuel → lsdVal (natDigitsRevF fuel n) = n := by
  intro fuel
  induction fuel with
  | zero => intro n h; interval_cases n; simp [natDigitsRevF, lsdVal]
  | succ f ih =>
    intro n h
    simp only [natDigitsRevF]
    by_cases hn : n = 0
    · simp [hn, lsdVal]
    · rw [if_neg hn]
      simp only [lsdVal]
      rw [ih (n / 10) (by omega)]
      omega

theorem natDigitsRevF_ne_nil : ∀ fuel n, n ≠ 0 → n ≤ fuel → natDigitsRevF fuel n ≠ [] := by
  intro fuel n hn h
  cases fuel with
  | zero => omega
  | succ f => simp [natDigitsRevF, hn]

theorem foldl_digits (f : Nat → Char → Nat) (hf : ∀ a c, f a c = a * 10 + (c.toNat - 48)) :
    ∀ ds acc, (∀ d ∈ ds, d < 10) →
      ((ds.reverse).map digitChar).foldl f acc = acc * 10 ^ ds.length + lsdVal ds := by
  intro ds
  induction ds with
  | nil => intro acc _; simp [lsdVal]
  | cons d ds ih =>
    intro acc hlt
    simp only [List.reverse_cons, List.map_append, List.foldl_append, List.map_cons,
      List.map_nil, List.foldl_cons, List.foldl_nil]
    rw [ih acc (fun e he => hlt e (List.mem_cons_of_mem _ he)), hf, digitChar_val]
    have hd : d % 10 = d := Nat.mod_eq_of_lt (hlt d (List.mem_cons_self _ _))
    have hpow : acc * 10 ^ (d :: ds).length = acc * 10 ^ ds.length * 10 := by
      simp only [List.length_cons, pow_succ]; ring
    simp only [lsdVal, hpow]
    omega

theorem digitsVal_natRepr (n : Nat) : digitsVal (natRepr n) = n := by
  by_cases hn : n = 0
  · subst hn; decide
  · simp only [natRepr, if_neg hn, digitsVal]
    rw [foldl_digits _ (fun a c => rfl) _ 0 (fun d hd => natDigitsRevF_lt10 n n d hd)]
    rw [lsdVal_natDigitsRevF n n le_rfl]
    simp

theorem natRepr_digits (n : Nat) : ∀ c ∈ natRepr n, isDigitChar c = true := by
  intro c hc
  by_cases hn : n = 0
  · subst hn
    simp only [natRepr, if_true, eq_self_iff_true, List.mem_singleton] at hc
    subst hc; decide
  · simp only [natRepr, if_neg hn, List.mem_map] at hc
    obtain ⟨d, _, rfl⟩ := hc
    exact digitChar_isDigit d

theorem natRepr_ne_nil (n : Nat) : natRepr n ≠ [] := by
  by_cases hn : n = 0
  · subst hn; decide
  · simp only [natRepr, if_neg hn]
    intro h
    rw [List.map_eq_nil_iff, List.reverse_eq_nil_iff] at h
    exact natDigitsRevF_ne_nil n n hn le_rfl h

theorem takeDigits_append : ∀ ds rest, (∀ c ∈ ds, isDigitChar c = true) → digitStop rest →
    takeDigits (ds ++ rest) = (ds, rest) := by
  intro ds
  induction ds with
  | nil =>
    intro rest _ hstop
    cases rest with
    | nil => rfl
    | cons c cs =>
      simp only [digitStop] at hstop
      simp [takeDigits, hstop]
  | cons c ds ih =>
    intro rest hdig hstop
    have hc : isDigitChar c = true := hdig c (List.mem_cons_self _ _)
    simp only [List.cons_append, takeDigits, hc, if_pos, List.append_eq]
    rw [ih rest (fun e he => hdig e (List.mem_cons_of_mem _ he)) hstop]

theorem natRepr_cons (m : Nat) : ∃ c t, natRepr m = c :: t := by
  cases h : natRepr m with
  | nil => exact absurd h (natRepr_ne_nil m)
  | cons c t => exact ⟨c, t, rfl⟩

theorem readIntToken_intRepr (n : Int) (rest : Str) (hstop : digitStop rest) :
    readIntToken (intRepr n ++ rest) = some (n, rest) := by
  cases n with
  | ofNat m =>
    obtain ⟨c, t, hct⟩ := natRepr_cons m
    have hc : isDigitChar c = true := by
      apply natRepr_digits m c
      rw [hct]; exact List.mem_cons_self _ _
    have hcm : c ≠ '-' := by
      apply char_ne_of_toNat
      rw [isDigitChar_iff] at hc
      have h45 : ('-').toNat = 45 := by decide
      omega
    have hsplit : intRepr (Int.ofNat m) ++ rest = c :: (t ++ rest) := by
      simp [intRepr, hct]
    rw [hsplit]
    simp only [readIntToken, if_neg hcm]
    have htake : takeDigits (c :: (t ++ rest)) = (c :: t, rest) := by
      rw [show c :: (t ++ rest) = (c :: t) ++ rest from rfl, ← hct]
      exact takeDigits_append _ rest (natRepr_digits m) hstop
    rw [htake]
    have hval : digitsVal (c :: t) = m := by rw [← hct]; exact digitsVal_natRepr m
    simp [hval]
  | negSucc m =>
    obtain ⟨c, t, hct⟩ := natRepr_cons (m + 1)
    have hsplit : intRepr (Int.negSucc m) ++ rest = '-' :: (natRepr (m + 1) ++ rest) := by
      simp [intRepr]
    rw [hsplit]
    simp only [readIntToken, if_pos rfl]
    rw [takeDigits_append _ rest (natRepr_digits (m + 1)) hstop, hct]
    have hval : digitsVal (c :: t) = m + 1 := by rw [← hct]; exact digitsVal_natRepr (m + 1)
    simp [hval, Int.negSucc_eq]

/-! ## Option and head-dispatch reduction lemmas -/

theorem optBindSome (a : α) (f : α → Option β) : (some a).bind f = f a := rfl

theorem optBindNone (f : α → Option β) : (Option.none).bind f = none := rfl

theorem optMapSome (a : α) (f : α → β) : (some a).map f = some (f a) := rfl

theorem optMapNone (f : α → β) : (Option.none).map f = none := rfl

theorem withHead_cons (f : Char → Str → Option α) (c : Char) (cs : Str) :
    withHead f (c :: cs) = f c cs := rfl

theorem optElimSome (a : α) (b : β) (f : α → β) : (some a).elim b f = f a := rfl

theorem optElimNone (b : β) (f : α → β) : (Option.none).elim b f = b := rfl

theorem exceptMapOk (a : α) (f : α → β) :
    (Except.ok a : Except ε α).map f = .ok (f a) := rfl

/-! ## String escaping round trip -/

theorem hex4Val_digits (n : Nat) (h : n < 0x10000) :
    hex4Val (hexDigitChar (n / 4096 % 16)) (hexDigitChar (n / 256 % 16))
      (hexDigitChar (n / 16 % 16)) (hexDigitChar (n % 16)) = some n := by
  have e1 := hexDigitVal_hexDigitChar (n / 4096 % 16) (by omega)
  have e2 := hexDigitVal_hexDigitChar (n / 256 % 16) (by omega)
  have e3 := hexDigitVal_hexDigitChar (n / 16 % 16) (by omega)
  have e4 := hexDigitVal_hexDigitChar (n % 16) (by omega)
  simp only [hex4Val, e1, e2, e3, e4, optBindSome, Option.some.injEq]
  omega

theorem readU_bmp (n : Nat) (X : Str) (h : n < 0x10000) (hs : n < 0xD800 ∨ 0xE000 ≤ n) :
    readU (hex4 n ++ X) = some (Char.ofNat n, X) := by
  simp only [hex4, List.cons_append, List.nil_append, readU,
    hex4Val_digits n h, optBindSome]
  rw [if_pos hs]

theorem readU_sur (cp : Nat) (X : Str) (h1 : 0x10000 ≤ cp) (h2 : cp < 0x110000) :
    readU (hex4 (0xD800 + (cp - 0x10000) / 1024) ++
      '\\' :: 'u' :: (hex4 (0xDC00 + (cp - 0x10000) % 1024) ++ X)) =
    some (Char.ofNat cp, X) := by
  have hmod : (cp - 0x10000) % 1024 < 1024 := Nat.mod_lt _ (by omega)
  have hhi : 0xD800 + (cp - 0x10000) / 1024 < 0x10000 := by omega
  have hlo : 0xDC00 + (cp - 0x10000) % 1024 < 0x10000 := by omega
  have hx := hex4Val_digits (0xD800 + (cp - 0x10000) / 1024) hhi
  have hy := hex4Val_digits (0xDC00 + (cp - 0x10000) % 1024) hlo
  have hc1 : ¬(0xD800 + (cp - 0x10000) / 1024 < 0xD800 ∨
      0xE000 ≤ 0xD800 + (cp - 0x10000) / 1024) := by omega
  have hc2 : 0xD800 + (cp - 0x10000) / 1024 < 0xDC00 := by omega
  have hc3 : 0xDC00 ≤ 0xDC00 + (cp - 0x10000) % 1024 ∧
      0xDC00 + (cp - 0x10000) % 1024 < 0xE000 := ⟨by omega, by omega⟩
  have harg : 0x10000 + (0xD800 + (cp - 0x10000) / 1024 - 0xD800) * 1024 +
      (0xDC00 + (cp - 0x10000) % 1024 - 0xDC00) = cp := by omega
  have hcc : ('\\' : Char) = '\\' ∧ ('u' : Char) = 'u' := ⟨rfl, rfl⟩
  simp only [hex4, List.cons_append, List.nil_append, readU]
  rw [hx, optBindSome]
  rw [if_neg hc1, if_pos hc2, readULow, if_pos hcc, hy, optBindSome]
  rw [if_pos hc3, harg]

theorem rsb_esc_quote (f : Nat) (cs : Str) :
    readStringBody (f + 1) ('\\' :: '"' :: cs) =
      (readStringBody f cs).map fun q => ('"' :: q.1, q.2) := rfl

theorem rsb_esc_back (f : Nat) (cs : Str) :
    readStringBody (f + 1) ('\\' :: '\\' :: cs) =
      (readStringBody f cs).map fun q => ('\\' :: q.1, q.2) := rfl

theorem rsb_esc_b (f : Nat) (cs : Str) :
    readStringBody (f + 1) ('\\' :: 'b' :: cs) =
      (readStringBody f cs).map fun q => ('\x08' :: q.1, q.2) := rfl

theorem rsb_esc_t (f : Nat) (cs : Str) :
    readStringBody (f + 1) ('\\' :: 't' :: cs) =
      (readStringBody f cs).map fun q => ('\x09' :: q.1, q.2) := rfl

theorem rsb_esc_n (f : Nat) (cs : Str) :
    readStringBody (f + 1) ('\\' :: 'n' :: cs) =
      (readStringBody f cs).map fun q => ('\x0a' :: q.1, q.2) := rfl

theorem rsb_esc_f (f : Nat) (cs : Str) :
    readStringBody (f + 1) ('\\' :: 'f' :: cs) =
      (readStringBody f cs).map fun q => ('\x0c' :: q.1, q.2) := rfl

theorem rsb_esc_r (f : Nat) (cs : Str) :
    readStringBody (f + 1) ('\\' :: 'r' :: cs) =
      (readStringBody f cs).map fun q => ('\x0d' :: q.1, q.2) := rfl

theorem rsb_u (f : Nat) (cs : Str) :
    readStringBody (f + 1) ('\\' :: 'u' :: cs) =
      (readU cs).bind fun p => (readStringBody f p.2).map fun q => (p.1 :: q.1, q.2) := rfl

theorem rsb_lit (f : Nat) (c : Char) (cs : Str) (h1 : ¬c = '"') (h2 : ¬c = '\\')
    (h3 : ¬c.toNat < 0x20) :
    readStringBody (f + 1) (c :: cs) = (readStringBody f cs).map fun q => (c :: q.1, q.2) := by
  simp only [readStringBody, withHead_cons]
  rw [if_neg h1, if_neg h2, if_neg h3]

theorem readStringBody_escape (c : Char) (f : Nat) (X : Str) :
    readStringBody (f + 1) (escapeChar c ++ X) =
      (readStringBody f X).map fun q => (c :: q.1, q.2) := by
  by_cases h1 : c = '"'
  · subst h1
    rw [show escapeChar '"' ++ X = '\\' :: '"' :: X from rfl, rsb_esc_quote]
  by_cases h2 : c = '\\'
  · subst h2
    rw [show escapeChar '\\' ++ X = '\\' :: '\\' :: X from rfl, rsb_esc_back]
  by_cases h3 : c = '\x08'
  · subst h3
    rw [show escapeChar '\x08' ++ X = '\\' :: 'b' :: X from rfl, rsb_esc_b]
  by_cases h4 : c = '\x09'
  · subst h4
    rw [show escapeChar '\x09' ++ X = '\\' :: 't' :: X from rfl, rsb_esc_t]
  by_cases h5 : c = '\x0a'
  · subst h5
    rw [show escapeChar '\x0a' ++ X = '\\' :: 'n' :: X from rfl, rsb_esc_n]
  by_cases h6 : c = '\x0c'
  · subst h6
    rw [show escapeChar '\x0c' ++ X = '\\' :: 'f' :: X from rfl, rsb_esc_f]
  by_cases h7 : c = '\x0d'
  · subst h7
    rw [show escapeChar '\x0d' ++ X = '\\' :: 'r' :: X from rfl, rsb_esc_r]
  by_cases h8 : 0x20 ≤ c.toNat ∧ c.toNat ≤ 0x7E
  · have he : escapeChar c ++ X = c :: X := by
      simp only [escapeChar, if_neg h1, if_neg h2, if_neg h3, if_neg h4, if_neg h5,
        if_neg h6, if_neg h7, if_pos h8]
      rfl
    rw [he, rsb_lit f c X h1 h2 (by omega)]
  by_cases h9 : c.toNat < 0x10000
  · have he : escapeChar c ++ X = '\\' :: 'u' :: (hex4 c.toNat ++ X) := by
      simp only [escapeChar, if_neg h1, if_neg h2, if_neg h3, if_neg h4, if_neg h5,
        if_neg h6, if_neg h7, if_neg h8, if_pos h9]
      rfl
    have hs : c.toNat < 0xD800 ∨ 0xE000 ≤ c.toNat := by
      rcases char_valid c with h | h
      · exact Or.inl h
      · exact Or.inr (by omega)
    have hb := readU_bmp c.toNat X h9 hs
    rw [he, rsb_u, hb, optBindSome, Char.ofNat_toNat]
  · have hcv : c.toNat < 0x110000 := by
      rcases char_valid c with h | h
      · omega
      · omega
    have he : escapeChar c ++ X =
        '\\' :: 'u' :: (hex4 (0xD800 + (c.toNat - 0x10000) / 1024) ++
          '\\' :: 'u' :: (hex4 (0xDC00 + (c.toNat - 0x10000) % 1024) ++ X)) := by
      simp only [escapeChar, if_neg h1, if_neg h2, if_neg h3, if_neg h4, if_neg h5,
        if_neg h6, if_neg h7, if_neg h8, if_neg h9, List.append_assoc, List.cons_append,
        List.nil_append]
    have hb := readU_sur c.toNat X (by omega) hcv
    rw [he, rsb_u, hb, optBindSome, Char.ofNat_toNat]

theorem readStringBody_escapeStr :
    ∀ (s : Str) (f : Nat) (rest : Str), s.length < f →
      readStringBody f (escapeStr s ++ '"' :: rest) = some (s, rest) := by
  intro s
  induction s with
  | nil =>
    intro f rest hf
    cases f with
    | zero => omega
    | succ f' =>
      rw [show escapeStr [] ++ '"' :: rest = '"' :: rest from rfl]
      simp [readStringBody, withHead_cons]
  | cons c s ih =>
    intro f rest hf
    cases f with
    | zero => omega
    | succ f' =>
      have he : escapeStr (c :: s) ++ '"' :: rest =
          escapeChar c ++ (escapeStr s ++ '"' :: rest) := by
        simp [escapeStr, List.append_assoc]
      rw [he, readStringBody_escape c f' _,
        ih f' rest (by simpa using Nat.lt_of_succ_lt_succ hf), optMapSome]

/-! ## Whitespace and head-shape lemmas for the parser -/

theorem skipWs_not_ws (c : Char) (l : Str) (h : isJsonWs c = false) :
    skipWs (c :: l) = c :: l := by
  simp [skipWs, h]

theorem skipWs_leading_ws : ∀ w l, (∀ c ∈ w, isJsonWs c = true) →
    skipWs (w ++ l) = skipWs l := by
  intro w
  induction w with
  | nil => intro l _; rfl
  | cons c w ih =>
    intro l hw
    have hc : isJsonWs c = true := hw c (List.mem_cons_self _ _)
    simp only [List.cons_append, skipWs, hc, if_pos]
    exact ih l (fun e he => hw e (List.mem_cons_of_mem _ he))

theorem spaces_ws (n : Nat) : ∀ c ∈ spaces n, isJsonWs c = true := by
  intro c hc
  rw [spaces, List.mem_replicate] at hc
  rw [hc.2]; decide

theorem skipWs_spaces (n : Nat) (l : Str) : skipWs (spaces n ++ l) = skipWs l :=
  skipWs_leading_ws (spaces n) l (spaces_ws n)

theorem escapeChar_length_pos (c : Char) : 1 ≤ (escapeChar c).length := by
  rw [escapeChar]
  split_ifs <;> simp [hex4]

theorem escapeStr_length : ∀ s : Str, s.length ≤ (escapeStr s).length := by
  intro s
  induction s with
  | nil => simp [escapeStr]
  | cons c s ih =>
    have h1 := escapeChar_length_pos c
    simp only [escapeStr, List.flatMap_cons, List.length_append, List.length_cons]
    simp only [escapeStr] at ih
    omega

theorem valueStart_props (c : Char) (h : valueStart c) :
    isJsonWs c = false ∧ ¬c = ']' ∧ ¬c = rbr := by
  rcases h with rfl | rfl | hd | rfl | rfl | rfl | rfl | rfl
  · decide
  · decide
  · rw [isDigitChar_iff] at hd
    refine ⟨?_, ?_, ?_⟩
    · rw [isJsonWs]
      have h1 : ¬c = ' ' :=
        char_ne_of_toNat (by rw [show (' ').toNat = 32 from by decide]; omega)
      have h2 : ¬c = '\n' :=
        char_ne_of_toNat (by rw [show ('\n').toNat = 10 from by decide]; omega)
      have h3 : ¬c = '\t' :=
        char_ne_of_toNat (by rw [show ('\t').toNat = 9 from by decide]; omega)
      have h4 : ¬c = '\r' :=
        char_ne_of_toNat (by rw [show ('\r').toNat = 13 from by decide]; omega)
      simp [h1, h2, h3, h4]
    · exact char_ne_of_toNat (by rw [show (']').toNat = 93 from by decide]; omega)
    · exact char_ne_of_toNat (by rw [show rbr.toNat = 125 from by decide]; omega)
  · decide
  · decide
  · decide
  · decide
  · decide

theorem intRepr_head (n : Int) :
    ∃ c t, intRepr n = c :: t ∧ 45 ≤ c.toNat ∧ c.toNat ≤ 57 := by
  cases n with
  | ofNat m =>
    obtain ⟨c, t, hct⟩ := natRepr_cons m
    have hc : isDigitChar c = true := by
      apply natRepr_digits m c
      rw [hct]; exact List.mem_cons_self _ _
    rw [isDigitChar_iff] at hc
    exact ⟨c, t, by simp [intRepr, hct], by omega, by omega⟩
  | negSucc m =>
    exact ⟨'-', natRepr (m + 1), rfl, by decide⟩

theorem intRepr_valueStart (n : Int) :
    ∃ c t, intRepr n = c :: t ∧ valueStart c := by
  cases n with
  | ofNat m =>
    obtain ⟨c, t, hct⟩ := natRepr_cons m
    have hc : isDigitChar c = true := by
      apply natRepr_digits m c
      rw [hct]; exact List.mem_cons_self _ _
    exact ⟨c, t, by simp [intRepr, hct], Or.inr (Or.inr (Or.inl hc))⟩
  | negSucc m =>
    exact ⟨'-', natRepr (m + 1), rfl, Or.inr (Or.inl rfl)⟩

theorem dumps_head (ind : Nat) (v : PyVal) (s : Str) (hd : dumps ind v = some s) :
    ∃ c t, s = c :: t ∧ valueStart c := by
  cases v with
  | str s' =>
    refine ⟨'"', escapeStr s' ++ ['"'], ?_, Or.inl rfl⟩
    simp only [dumps] at hd
    exact (Option.some.injEq _ _).mp hd.symm ▸ rfl
  | int n =>
    obtain ⟨c, t, hct, hvs⟩ := intRepr_valueStart n
    refine ⟨c, t, ?_, hvs⟩
    simp only [dumps] at hd
    rw [← hct]
    exact ((Option.some.injEq _ _).mp hd).symm
  | bool b =>
    cases b with
    | true =>
      simp only [dumps] at hd
      exact ⟨'t', ['r', 'u', 'e'], ((Option.some.injEq _ _).mp hd).symm,
        Or.inr (Or.inr (Or.inr (Or.inl rfl)))⟩
    | false =>
      simp only [dumps] at hd
      exact ⟨'f', ['a', 'l', 's', 'e'], ((Option.some.injEq _ _).mp hd).symm,
        Or.inr (Or.inr (Or.inr (Or.inr (Or.inl rfl))))⟩
  | null =>
    simp only [dumps] at hd
    exact ⟨'n', ['u', 'l', 'l'], ((Option.some.injEq _ _).mp hd).symm,
      Or.inr (Or.inr (Or.inr (Or.inr (Or.inr (Or.inl rfl)))))⟩
  | other name => simp [dumps] at hd
  | list l =>
    cases l with
    | nil =>
      simp only [dumps] at hd
      exact ⟨'[', [']'], ((Option.some.injEq _ _).mp hd).symm,
        Or.inr (Or.inr (Or.inr (Or.inr (Or.inr (Or.inr (Or.inl rfl))))))⟩
    | cons v' vs =>
      simp only [dumps] at hd
      cases hpi : dumpsItems (ind + 2) (PyList.cons v' vs) with
      | none => rw [hpi] at hd; simp at hd
      | some parts =>
        rw [hpi, optMapSome] at hd
        exact ⟨'[', '\n' :: parts ++ '\n' :: spaces ind ++ [']'],
          ((Option.some.injEq _ _).mp hd).symm,
          Or.inr (Or.inr (Or.inr (Or.inr (Or.inr (Or.inr (Or.inl rfl))))))⟩
  | dict d =>
    cases d with
    | nil =>
      simp only [dumps] at hd
      exact ⟨lbr, [rbr], ((Option.some.injEq _ _).mp hd).symm,
        Or.inr (Or.inr (Or.inr (Or.inr (Or.inr (Or.inr (Or.inr rfl))))))⟩
    | cons k v' es =>
      simp only [dumps] at hd
      cases hpe : dumpsEntries (ind + 2) (PyDict.cons k v' es) with
      | none => rw [hpe] at hd; simp at hd
      | some parts =>
        rw [hpe, optMapSome] at hd
        exact ⟨lbr, '\n' :: parts ++ '\n' :: spaces ind ++ [rbr],
          ((Option.some.injEq _ _).mp hd).symm,
          Or.inr (Or.inr (Or.inr (Or.inr (Or.inr (Or.inr (Or.inr rfl))))))⟩

theorem dumps_list_cons (ind : Nat) (v : PyVal) (vs : PyList) :
    dumps ind (PyVal.list (PyList.cons v vs)) =
      (dumpsItems (ind + 2) (PyList.cons v vs)).map fun parts =>
        '[' :: '\n' :: parts ++ '\n' :: spaces ind ++ [']'] := rfl

theorem dumps_dict_cons (ind : Nat) (k : Str) (v : PyVal) (es : PyDict) :
    dumps ind (PyVal.dict (PyDict.cons k v es)) =
      (dumpsEntries (ind + 2) (PyDict.cons k v es)).map fun parts =>
        lbr :: '\n' :: parts ++ '\n' :: spaces ind ++ [rbr] := rfl

theorem dumpsItems_one (ind : Nat) (v : PyVal) :
    dumpsItems ind (PyList.cons v PyList.nil) =
      (dumps ind v).bind fun s => some (spaces ind ++ s) := rfl

theorem dumpsItems_more (ind : Nat) (v v' : PyVal) (vs : PyList) :
    dumpsItems ind (PyList.cons v (PyList.cons v' vs)) =
      (dumps ind v).bind fun s =>
        (dumpsItems ind (PyList.cons v' vs)).map fun rest =>
          spaces ind ++ s ++ ',' :: '\n' :: rest := rfl

theorem dumpsEntries_one (ind : Nat) (k : Str) (v : PyVal) :
    dumpsEntries ind (PyDict.cons k v PyDict.nil) =
      (dumps ind v).bind fun s =>
        some (spaces ind ++ '"' :: escapeStr k ++ '"' :: ':' :: ' ' :: s) := rfl

theorem dumpsEntries_more (ind : Nat) (k : Str) (v : PyVal) (k' : Str) (v' : PyVal)
    (es : PyDict) :
    dumpsEntries ind (PyDict.cons k v (PyDict.cons k' v' es)) =
      (dumps ind v).bind fun s =>
        (dumpsEntries ind (PyDict.cons k' v' es)).map fun rest =>
          spaces ind ++ '"' :: escapeStr k ++ '"' :: ':' :: ' ' :: s ++ ',' :: '\n' :: rest :=
  rfl

theorem dumpsItems_skipWs (ind : Nat) (v : PyVal) (vs : PyList) (parts : Str)
    (hd : dumpsItems ind (PyList.cons v vs) = some parts) (X : Str) :
    ∃ c₀ t₀, skipWs (parts ++ X) = c₀ :: t₀ ∧ valueStart c₀ := by
  cases hdv : dumps ind v with
  | none =>
    cases vs with
    | nil => rw [dumpsItems_one, hdv, optBindNone] at hd; exact Option.noConfusion hd
    | cons v' vs' =>
      rw [dumpsItems_more, hdv, optBindNone] at hd; exact Option.noConfusion hd
  | some sv =>
    obtain ⟨c₀, t₀, hsv, hvs⟩ := dumps_head ind v sv hdv
    cases vs with
    | nil =>
      rw [dumpsItems_one, hdv, optBindSome, Option.some.injEq] at hd
      subst hd
      refine ⟨c₀, t₀ ++ X, ?_, hvs⟩
      rw [hsv]
      simp only [List.append_assoc, List.cons_append]
      rw [skipWs_spaces, skipWs_not_ws c₀ _ (valueStart_props c₀ hvs).1]
    | cons v' vs' =>
      cases hdt : dumpsItems ind (PyList.cons v' vs') with
      | none =>
        rw [dumpsItems_more, hdv, optBindSome, hdt, optMapNone] at hd
        exact Option.noConfusion hd
      | some st =>
        rw [dumpsItems_more, hdv, optBindSome, hdt, optMapSome, Option.some.injEq] at hd
        subst hd
        refine ⟨c₀, t₀ ++ (',' :: '\n' :: st ++ X), ?_, hvs⟩
        rw [hsv]
        simp only [List.append_assoc, List.cons_append]
        rw [skipWs_spaces, skipWs_not_ws c₀ _ (valueStart_props c₀ hvs).1]

theorem dumpsEntries_skipWs (ind : Nat) (k : Str) (v : PyVal) (es : PyDict) (parts : Str)
    (hd : dumpsEntries ind (PyDict.cons k v es) = some parts) (X : Str) :
    ∃ t₀, skipWs (parts ++ X) = '"' :: t₀ := by
  cases hdv : dumps ind v with
  | none =>
    cases es with
    | nil => rw [dumpsEntries_one, hdv, optBindNone] at hd; exact Option.noConfusion hd
    | cons k' v' es' =>
      rw [dumpsEntries_more, hdv, optBindNone] at hd; exact Option.noConfusion hd
  | some sv =>
    cases es with
    | nil =>
      rw [dumpsEntries_one, hdv, optBindSome, Option.some.injEq] at hd
      subst hd
      refine ⟨escapeStr k ++ '"' :: ':' :: ' ' :: sv ++ X, ?_⟩
      simp only [List.append_assoc, List.cons_append]
      rw [skipWs_spaces, skipWs_not_ws '"' _ (by decide)]
    | cons k' v' es' =>
      cases hdt : dumpsEntries ind (PyDict.cons k' v' es') with
      | none =>
        rw [dumpsEntries_more, hdv, optBindSome, hdt, optMapNone] at hd
        exact Option.noConfusion hd
      | some st =>
        rw [dumpsEntries_more, hdv, optBindSome, hdt, optMapSome, Option.some.injEq] at hd
        subst hd
        refine ⟨escapeStr k ++ '"' :: ':' :: ' ' :: sv ++ ',' :: '\n' :: st ++ X, ?_⟩
        simp only [List.append_assoc, List.cons_append]
        rw [skipWs_spaces, skipWs_not_ws '"' _ (by decide)]

/-! ## Serializer case equations and parser dispatch steps -/

theorem pairFst (a : α) (b : β) : (a, b).1 = a := rfl

theorem pairSnd (a : α) (b : β) : (a, b).2 = b := rfl

theorem dumps_str (ind : Nat) (s : Str) :
    dumps ind (PyVal.str s) = some ('"' :: escapeStr s ++ ['"']) := rfl

theorem dumps_int (ind : Nat) (n : Int) : dumps ind (PyVal.int n) = some (intRepr n) := rfl

theorem dumps_true (ind : Nat) :
    dumps ind (PyVal.bool true) = some ['t', 'r', 'u', 'e'] := rfl

theorem dumps_false (ind : Nat) :
    dumps ind (PyVal.bool false) = some ['f', 'a', 'l', 's', 'e'] := rfl

theorem dumps_null (ind : Nat) : dumps ind PyVal.null = some ['n', 'u', 'l', 'l'] := rfl

theorem dumps_other (ind : Nat) (name : Str) : dumps ind (PyVal.other name) = none := rfl

theorem dumps_list_nil (ind : Nat) : dumps ind (PyVal.list PyList.nil) = some ['[', ']'] := rfl

theorem dumps_dict_nil (ind : Nat) : dumps ind (PyVal.dict PyDict.nil) = some [lbr, rbr] := rfl

theorem rv_null (f : Nat) (t : Str) :
    readValue (f + 1) ('n' :: t) = (tailLit3 'u' 'l' 'l' t).map fun r => (PyVal.null, r) := rfl

theorem rv_true (f : Nat) (t : Str) :
    readValue (f + 1) ('t' :: t) =
      (tailLit3 'r' 'u' 'e' t).map fun r => (PyVal.bool true, r) := rfl

theorem rv_false (f : Nat) (t : Str) :
    readValue (f + 1) ('f' :: t) =
      (tailLit4 'a' 'l' 's' 'e' t).map fun r => (PyVal.bool false, r) := rfl

theorem rv_str (f : Nat) (t : Str) :
    readValue (f + 1) ('"' :: t) =
      (readStringBody t.length t).map fun p => (PyVal.str p.1, p.2) := rfl

theorem rv_arr (f : Nat) (t : Str) :
    readValue (f + 1) ('[' :: t) =
      withHead (fun c' r =>
        if c' = ']' then some (PyVal.list PyList.nil, r)
        else (readItems f t).map fun p => (PyVal.list p.1, p.2)) (skipWs t) := rfl

theorem rv_obj (f : Nat) (t : Str) :
    readValue (f + 1) (lbr :: t) =
      withHead (fun c' r =>
        if c' = rbr then some (PyVal.dict PyDict.nil, r)
        else (readEntries f t).map fun p => (PyVal.dict p.1, p.2)) (skipWs t) := rfl

theorem isJsonWs_num (c : Char) (h1 : 45 ≤ c.toNat) (h2 : c.toNat ≤ 57) :
    isJsonWs c = false := by
  rw [isJsonWs]
  have g1 : ¬c = ' ' := char_ne_of_toNat (by rw [show (' ').toNat = 32 from by decide]; omega)
  have g2 : ¬c = '\n' := char_ne_of_toNat (by rw [show ('\n').toNat = 10 from by decide]; omega)
  have g3 : ¬c = '\t' := char_ne_of_toNat (by rw [show ('\t').toNat = 9 from by decide]; omega)
  have g4 : ¬c = '\r' := char_ne_of_toNat (by rw [show ('\r').toNat = 13 from by decide]; omega)
  simp [g1, g2, g3, g4]

theorem rv_int (f : Nat) (c : Char) (t : Str) (h1 : 45 ≤ c.toNat) (h2 : c.toNat ≤ 57) :
    readValue (f + 1) (c :: t) = (readIntToken (c :: t)).map fun p => (PyVal.int p.1, p.2) := by
  rw [readValue, skipWs_not_ws c t (isJsonWs_num c h1 h2)]
  simp only [withHead_cons]
  rw [if_neg (char_ne_of_toNat (by rw [show ('n').toNat = 110 from by decide]; omega)),
    if_neg (char_ne_of_toNat (by rw [show ('t').toNat = 116 from by decide]; omega)),
    if_neg (char_ne_of_toNat (by rw [show ('f').toNat = 102 from by decide]; omega)),
    if_neg (char_ne_of_toNat (by rw [show ('"').toNat = 34 from by decide]; omega)),
    if_neg (char_ne_of_toNat (by rw [show ('[').toNat = 91 from by decide]; omega)),
    if_neg (char_ne_of_toNat (by rw [show lbr.toNat = 123 from by decide]; omega))]

theorem rv_ws (f : Nat) (w cs : Str) (hw : ∀ c ∈ w, isJsonWs c = true) :
    readValue (f + 1) (w ++ cs) = readValue (f + 1) cs := by
  rw [readValue, readValue, skipWs_leading_ws w cs hw]

theorem tailLit3_eq (a b c : Char) (r : Str) : tailLit3 a b c (a :: b :: c :: r) = some r := by
  rw [tailLit3, if_pos ⟨rfl, rfl, rfl⟩]

theorem tailLit4_eq (a b c d : Char) (r : Str) :
    tailLit4 a b c d (a :: b :: c :: d :: r) = some r := by
  rw [tailLit4, if_pos ⟨rfl, rfl, rfl, rfl⟩]

theorem readItems_step (f : Nat) (cs : Str) (v : PyVal) (r : Str)
    (hv : readValue f cs = some (v, r)) :
    readItems (f + 1) cs = withHead (fun c r2 =>
      if c = ',' then (readItems f r2).map fun p => (PyList.cons v p.1, p.2)
      else if c = ']' then some (PyList.cons v PyList.nil, r2)
      else none) (skipWs r) := by
  rw [readItems, hv, optBindSome]

theorem readEntries_step (f : Nat) (cs r : Str) (k : Str) (r1 : Str)
    (hsk : skipWs cs = '"' :: r) (hk : readStringBody r.length r = some (k, r1)) :
    readEntries (f + 1) cs = withHead (fun c1 r2 =>
      if c1 = ':' then
        (readValue f r2).bind fun pv =>
          withHead (fun c2 r4 =>
            if c2 = ',' then (readEntries f r4).map fun p => (PyDict.cons k pv.1 p.1, p.2)
            else if c2 = rbr then some (PyDict.cons k pv.1 PyDict.nil, r4)
            else none) (skipWs pv.2)
      else none) (skipWs r1) := by
  rw [readEntries, hsk]
  simp only [withHead_cons]
  rw [if_pos trivial, hk, optBindSome]

theorem spaces_length (n : Nat) : (spaces n).length = n := by simp [spaces]

/-- Joint round-trip induction: reading back a serialized value (with any
leading whitespace and a non-digit continuation) recovers the value, and
likewise for the item and member lists of arrays and objects. -/
theorem read_dumps : ∀ fuel : Nat,
    (∀ v ind s w rest, dumps ind v = some s → s.length ≤ fuel →
        (∀ c ∈ w, isJsonWs c = true) → digitStop rest →
        readValue fuel (w ++ s ++ rest) = some (v, rest)) ∧
    (∀ v vs ind ind₀ s w rest, dumpsItems ind (PyList.cons v vs) = some s → 1 ≤ ind →
        s.length ≤ fuel → (∀ c ∈ w, isJsonWs c = true) →
        readItems fuel (w ++ s ++ '\n' :: spaces ind₀ ++ ']' :: rest) =
          some (PyList.cons v vs, rest)) ∧
    (∀ k v es ind ind₀ s w rest, dumpsEntries ind (PyDict.cons k v es) = some s → 1 ≤ ind →
        s.length ≤ fuel → (∀ c ∈ w, isJsonWs c = true) →
        readEntries fuel (w ++ s ++ '\n' :: spaces ind₀ ++ rbr :: rest) =
          some (PyDict.cons k v es, rest)) := by
  intro fuel
  induction fuel using Nat.strong_induction_on with
  | _ fuel IH =>
  refine ⟨?_, ?_, ?_⟩
  · intro v ind s w rest hd hlen hw hstop
    cases v with
    | str s' =>
      rw [dumps_str, Option.some.injEq] at hd
      subst hd
      cases fuel with
      | zero => simp at hlen
      | succ f =>
        rw [List.append_assoc, rv_ws f w _ hw]
        have hshape : ('"' :: escapeStr s' ++ ['"']) ++ rest =
            '"' :: (escapeStr s' ++ '"' :: rest) := by simp
        rw [hshape, rv_str]
        have hlt : s'.length < (escapeStr s' ++ '"' :: rest).length := by
          have h1 := escapeStr_length s'
          simp only [List.length_append, List.length_cons]
          omega
        rw [readStringBody_escapeStr s' _ rest hlt, optMapSome]
    | int n =>
      rw [dumps_int, Option.some.injEq] at hd
      subst hd
      obtain ⟨c, t, hct, hr1, hr2⟩ := intRepr_head n
      cases fuel with
      | zero => rw [hct] at hlen; simp at hlen
      | succ f =>
        rw [List.append_assoc, rv_ws f w _ hw, hct, List.cons_append,
          rv_int f c _ hr1 hr2, ← List.cons_append, ← hct,
          readIntToken_intRepr n rest hstop, optMapSome]
    | bool b =>
      cases b with
      | true =>
        rw [dumps_true, Option.some.injEq] at hd
        subst hd
        cases fuel with
        | zero => simp at hlen
        | succ f =>
          rw [List.append_assoc, rv_ws f w _ hw]
          rw [show (['t', 'r', 'u', 'e'] : Str) ++ rest = 't' :: 'r' :: 'u' :: 'e' :: rest
            from rfl]
          rw [rv_true, tailLit3_eq, optMapSome]
      | false =>
        rw [dumps_false, Option.some.injEq] at hd
        subst hd
        cases fuel with
        | zero => simp at hlen
        | succ f =>
          rw [List.append_assoc, rv_ws f w _ hw]
          rw [show (['f', 'a', 'l', 's', 'e'] : Str) ++ rest =
            'f' :: 'a' :: 'l' :: 's' :: 'e' :: rest from rfl]
          rw [rv_false, tailLit4_eq, optMapSome]
    | null =>
      rw [dumps_null, Option.some.injEq] at hd
      subst hd
      cases fuel with
      | zero => simp at hlen
      | succ f =>
        rw [List.append_assoc, rv_ws f w _ hw]
        rw [show (['n', 'u', 'l', 'l'] : Str) ++ rest = 'n' :: 'u' :: 'l' :: 'l' :: rest
          from rfl]
        rw [rv_null, tailLit3_eq, optMapSome]
    | other name =>
      rw [dumps_other] at hd
      exact Option.noConfusion hd
    | list l =>
      cases l with
      | nil =>
        rw [dumps_list_nil, Option.some.injEq] at hd
        subst hd
        cases fuel with
        | zero => simp at hlen
        | succ f =>
          rw [List.append_assoc, rv_ws f w _ hw]
          rw [show (['[', ']'] : Str) ++ rest = '[' :: ']' :: rest from rfl]
          rw [rv_arr, skipWs_not_ws ']' rest (by decide)]
          simp only [withHead_cons]
          rw [if_pos trivial]
      | cons v' vs =>
        rw [dumps_list_cons] at hd
        cases hpi : dumpsItems (ind + 2) (PyList.cons v' vs) with
        | none => rw [hpi, optMapNone] at hd; exact Option.noConfusion hd
        | some parts =>
          rw [hpi, optMapSome, Option.some.injEq] at hd
          subst hd
          cases fuel with
          | zero => simp at hlen
          | succ f =>
            rw [List.append_assoc, rv_ws f w _ hw]
            have hshape : ('[' :: '\n' :: parts ++ '\n' :: spaces ind ++ [']']) ++ rest =
                '[' :: ('\n' :: (parts ++ ('\n' :: (spaces ind ++ (']' :: rest))))) := by
              simp [List.append_assoc]
            rw [hshape, rv_arr]
            obtain ⟨c₀, t₀, hsk, hvs⟩ := dumpsItems_skipWs (ind + 2) v' vs parts hpi
              ('\n' :: (spaces ind ++ (']' :: rest)))
            have hsk2 : skipWs ('\n' :: (parts ++ ('\n' :: (spaces ind ++ (']' :: rest))))) =
                c₀ :: t₀ := by
              rw [show skipWs ('\n' :: (parts ++ ('\n' :: (spaces ind ++ (']' :: rest))))) =
                skipWs (parts ++ ('\n' :: (spaces ind ++ (']' :: rest)))) from rfl, hsk]
            rw [hsk2]
            simp only [withHead_cons]
            rw [if_neg (valueStart_props c₀ hvs).2.1]
            have hplen : parts.length ≤ f := by
              simp only [List.length_cons, List.length_append, spaces_length,
                List.length_singleton] at hlen
              omega
            have hq := (IH f (Nat.lt_succ_self f)).2.1 v' vs (ind + 2) ind parts ['\n'] rest
              hpi (by omega) hplen
              (by intro c hc; rw [List.mem_singleton] at hc; subst hc; decide)
            rw [show ('\n' :: (parts ++ ('\n' :: (spaces ind ++ (']' :: rest)))) : Str) =
              ['\n'] ++ parts ++ '\n' :: spaces ind ++ ']' :: rest from by
                simp [List.append_assoc], hq, optMapSome]
    | dict d =>
      cases d with
      | nil =>
        rw [dumps_dict_nil, Option.some.injEq] at hd
        subst hd
        cases fuel with
        | zero => simp at hlen
        | succ f =>
          rw [List.append_assoc, rv_ws f w _ hw]
          rw [show ([lbr, rbr] : Str) ++ rest = lbr :: rbr :: rest from rfl]
          rw [rv_obj, skipWs_not_ws rbr rest (by decide)]
          simp only [withHead_cons]
          rw [if_pos trivial]
      | cons k v' es =>
        rw [dumps_dict_cons] at hd
        cases hpe : dumpsEntries (ind + 2) (PyDict.cons k v' es) with
        | none => rw [hpe, optMapNone] at hd; exact Option.noConfusion hd
        | some parts =>
          rw [hpe, optMapSome, Option.some.injEq] at hd
          subst hd
          cases fuel with
          | zero => simp at hlen
          | succ f =>
            rw [List.append_assoc, rv_ws f w _ hw]
            have hshape : (lbr :: '\n' :: parts ++ '\n' :: spaces ind ++ [rbr]) ++ rest =
                lbr :: ('\n' :: (parts ++ ('\n' :: (spaces ind ++ (rbr :: rest))))) := by
              simp [List.append_assoc]
            rw [hshape, rv_obj]
            obtain ⟨t₀, hsk⟩ := dumpsEntries_skipWs (ind + 2) k v' es parts hpe
              ('\n' :: (spaces ind ++ (rbr :: rest)))
            have hsk2 : skipWs ('\n' :: (parts ++ ('\n' :: (spaces ind ++ (rbr :: rest))))) =
                '"' :: t₀ := by
              rw [show skipWs ('\n' :: (parts ++ ('\n' :: (spaces ind ++ (rbr :: rest))))) =
                skipWs (parts ++ ('\n' :: (spaces ind ++ (rbr :: rest)))) from rfl, hsk]
            rw [hsk2]
            simp only [withHead_cons]
            rw [if_neg (by decide : ¬('"' : Char) = rbr)]
            have hplen : parts.length ≤ f := by
              simp only [List.length_cons, List.length_append, spaces_length,
                List.length_singleton] at hlen
              omega
            have hq := (IH f (Nat.lt_succ_self f)).2.2 k v' es (ind + 2) ind parts ['\n'] rest
              hpe (by omega) hplen
              (by intro c hc; rw [List.mem_singleton] at hc; subst hc; decide)
            rw [show ('\n' :: (parts ++ ('\n' :: (spaces ind ++ (rbr :: rest)))) : Str) =
              ['\n'] ++ parts ++ '\n' :: spaces ind ++ rbr :: rest from by
                simp [List.append_assoc], hq, optMapSome]
  · intro v vs ind ind₀ s w rest hd hind hlen hw
    cases hdv : dumps ind v with
    | none =>
      cases vs with
      | nil => rw [dumpsItems_one, hdv, optBindNone] at hd; exact Option.noConfusion hd
      | cons v' vs' =>
        rw [dumpsItems_more, hdv, optBindNone] at hd; exact Option.noConfusion hd
    | some sv =>
      cases vs with
      | nil =>
        rw [dumpsItems_one, hdv, optBindSome, Option.some.injEq] at hd
        subst hd
        cases fuel with
        | zero => rw [List.length_append, spaces_length] at hlen; omega
        | succ f =>
          have hwind : ∀ c ∈ w ++ spaces ind, isJsonWs c = true := by
            intro c hc
            rcases List.mem_append.mp hc with h | h
            · exact hw c h
            · exact spaces_ws ind c h
          have hp := (IH f (Nat.lt_succ_self f)).1 v ind sv (w ++ spaces ind)
            ('\n' :: (spaces ind₀ ++ (']' :: rest))) hdv
            (by rw [List.length_append, spaces_length] at hlen; omega)
            hwind
            (by exact (by decide : isDigitChar '\n' = false))
          simp only [List.append_assoc, List.cons_append, List.nil_append, List.singleton_append] at hp ⊢
          rw [readItems_step f _ v _ hp]
          have hsk : skipWs ('\n' :: (spaces ind₀ ++ (']' :: rest))) = ']' :: rest := by
            rw [show skipWs ('\n' :: (spaces ind₀ ++ (']' :: rest))) =
              skipWs (spaces ind₀ ++ (']' :: rest)) from rfl, skipWs_spaces,
              skipWs_not_ws ']' rest (by decide)]
          rw [hsk]
          simp only [withHead_cons]
          rw [if_neg (by decide : ¬(']' : Char) = ','), if_pos trivial]
      | cons v' vs' =>
        cases hdt : dumpsItems ind (PyList.cons v' vs') with
        | none =>
          rw [dumpsItems_more, hdv, optBindSome, hdt, optMapNone] at hd
          exact Option.noConfusion hd
        | some st =>
          rw [dumpsItems_more, hdv, optBindSome, hdt, optMapSome, Option.some.injEq] at hd
          subst hd
          cases fuel with
          | zero =>
            simp only [List.length_append, spaces_length, List.length_cons] at hlen; omega
          | succ f =>
            have hwind : ∀ c ∈ w ++ spaces ind, isJsonWs c = true := by
              intro c hc
              rcases List.mem_append.mp hc with h | h
              · exact hw c h
              · exact spaces_ws ind c h
            have hp := (IH f (Nat.lt_succ_self f)).1 v ind sv (w ++ spaces ind)
              (',' :: ('\n' :: (st ++ ('\n' :: (spaces ind₀ ++ (']' :: rest)))))) hdv
              (by simp only [List.length_append, spaces_length, List.length_cons] at hlen
                  omega)
              hwind
              (by exact (by decide : isDigitChar ',' = false))
            simp only [List.append_assoc, List.cons_append, List.nil_append, List.singleton_append] at hp ⊢
            rw [readItems_step f _ v _ hp]
            have hsk : skipWs (',' :: ('\n' :: (st ++ ('\n' :: (spaces ind₀ ++
                (']' :: rest)))))) = ',' :: ('\n' :: (st ++ ('\n' :: (spaces ind₀ ++
                (']' :: rest))))) := skipWs_not_ws _ _ (by decide)
            rw [hsk]
            simp only [withHead_cons]
            rw [if_pos trivial]
            have hstlen : st.length ≤ f := by
              simp only [List.length_append, spaces_length, List.length_cons] at hlen
              omega
            have hq := (IH f (Nat.lt_succ_self f)).2.1 v' vs' ind ind₀ st ['\n'] rest
              hdt hind hstlen
              (by intro c hc; rw [List.mem_singleton] at hc; subst hc; decide)
            simp only [List.append_assoc, List.cons_append, List.nil_append, List.singleton_append] at hq
            rw [hq, optMapSome]
  · intro k v es ind ind₀ s w rest hd hind hlen hw
    cases hdv : dumps ind v with
    | none =>
      cases es with
      | nil => rw [dumpsEntries_one, hdv, optBindNone] at hd; exact Option.noConfusion hd
      | cons k' v' es' =>
        rw [dumpsEntries_more, hdv, optBindNone] at hd; exact Option.noConfusion hd
    | some sv =>
      cases es with
      | nil =>
        rw [dumpsEntries_one, hdv, optBindSome, Option.some.injEq] at hd
        subst hd
        cases fuel with
        | zero =>
          simp only [List.length_append, spaces_length, List.length_cons] at hlen; omega
        | succ f =>
          have hsk : skipWs (w ++ (spaces ind ++ '"' :: escapeStr k ++ '"' :: ':' :: ' ' :: sv)
              ++ '\n' :: spaces ind₀ ++ rbr :: rest) =
              '"' :: (escapeStr k ++ '"' :: (':' :: (' ' :: (sv ++
                ('\n' :: (spaces ind₀ ++ (rbr :: rest))))))) := by
            simp only [List.append_assoc, List.cons_append]
            rw [skipWs_leading_ws w _ hw, skipWs_spaces, skipWs_not_ws '"' _ (by decide)]
          have hkparse : readStringBody (escapeStr k ++ '"' :: (':' :: (' ' :: (sv ++
                ('\n' :: (spaces ind₀ ++ (rbr :: rest))))))).length
              (escapeStr k ++ '"' :: (':' :: (' ' :: (sv ++
                ('\n' :: (spaces ind₀ ++ (rbr :: rest))))))) =
              some (k, ':' :: (' ' :: (sv ++ ('\n' :: (spaces ind₀ ++ (rbr :: rest)))))) := by
            apply readStringBody_escapeStr
            have h1 := escapeStr_length k
            simp only [List.length_append, List.length_cons]
            omega
          rw [readEntries_step f _ _ k _ hsk hkparse]
          have hsk2 : skipWs (':' :: (' ' :: (sv ++ ('\n' :: (spaces ind₀ ++
              (rbr :: rest)))))) = ':' :: (' ' :: (sv ++ ('\n' :: (spaces ind₀ ++
              (rbr :: rest))))) := skipWs_not_ws _ _ (by decide)
          rw [hsk2]
          simp only [withHead_cons]
          rw [if_pos trivial]
          have hp := (IH f (Nat.lt_succ_self f)).1 v ind sv [' ']
            ('\n' :: (spaces ind₀ ++ (rbr :: rest))) hdv
            (by simp only [List.length_append, spaces_length, List.length_cons] at hlen
                omega)
            (by intro c hc; rw [List.mem_singleton] at hc; subst hc; decide)
            (by exact (by decide : isDigitChar '\n' = false))
          simp only [List.append_assoc, List.cons_append, List.nil_append, List.singleton_append] at hp
          rw [hp, optBindSome]
          simp only [pairFst, pairSnd]
          have hsk3 : skipWs ('\n' :: (spaces ind₀ ++ (rbr :: rest))) = rbr :: rest := by
            rw [show skipWs ('\n' :: (spaces ind₀ ++ (rbr :: rest))) =
              skipWs (spaces ind₀ ++ (rbr :: rest)) from rfl, skipWs_spaces,
              skipWs_not_ws rbr rest (by decide)]
          rw [hsk3]
          simp only [withHead_cons]
          rw [if_neg (by decide : ¬rbr = ','), if_pos trivial]
      | cons k' v' es' =>
        cases hdt : dumpsEntries ind (PyDict.cons k' v' es') with
        | none =>
          rw [dumpsEntries_more, hdv, optBindSome, hdt, optMapNone] at hd
          exact Option.noConfusion hd
        | some st =>
          rw [dumpsEntries_more, hdv, optBindSome, hdt, optMapSome, Option.some.injEq] at hd
          subst hd
          cases fuel with
          | zero =>
            simp only [List.length_append, spaces_length, List.length_cons] at hlen; omega
          | succ f =>
            have hsk : skipWs (w ++ (spaces ind ++ '"' :: escapeStr k ++ '"' :: ':' :: ' ' ::
                sv ++ ',' :: '\n' :: st) ++ '\n' :: spaces ind₀ ++ rbr :: rest) =
                '"' :: (escapeStr k ++ '"' :: (':' :: (' ' :: (sv ++ (',' :: ('\n' :: (st ++
                  ('\n' :: (spaces ind₀ ++ (rbr :: rest)))))))))) := by
              simp only [List.append_assoc, List.cons_append]
              rw [skipWs_leading_ws w _ hw, skipWs_spaces, skipWs_not_ws '"' _ (by decide)]
            have hkparse : readStringBody (escapeStr k ++ '"' :: (':' :: (' ' :: (sv ++
                  (',' :: ('\n' :: (st ++ ('\n' :: (spaces ind₀ ++ (rbr :: rest)))))))))).length
                (escapeStr k ++ '"' :: (':' :: (' ' :: (sv ++
                  (',' :: ('\n' :: (st ++ ('\n' :: (spaces ind₀ ++ (rbr :: rest)))))))))) =
                some (k, ':' :: (' ' :: (sv ++ (',' :: ('\n' :: (st ++
                  ('\n' :: (spaces ind₀ ++ (rbr :: rest))))))))) := by
              apply readStringBody_escapeStr
              have h1 := escapeStr_length k
              simp only [List.length_append, List.length_cons]
              omega
            rw [readEntries_step f _ _ k _ hsk hkparse]
            have hsk2 : skipWs (':' :: (' ' :: (sv ++ (',' :: ('\n' :: (st ++
                ('\n' :: (spaces ind₀ ++ (rbr :: rest))))))))) =
                ':' :: (' ' :: (sv ++ (',' :: ('\n' :: (st ++
                ('\n' :: (spaces ind₀ ++ (rbr :: rest)))))))) := skipWs_not_ws _ _ (by decide)
            rw [hsk2]
            simp only [withHead_cons]
            rw [if_pos trivial]
            have hp := (IH f (Nat.lt_succ_self f)).1 v ind sv [' ']
              (',' :: ('\n' :: (st ++ ('\n' :: (spaces ind₀ ++ (rbr :: rest)))))) hdv
              (by simp only [List.length_append, spaces_length, List.length_cons] at hlen
                  omega)
              (by intro c hc; rw [List.mem_singleton] at hc; subst hc; decide)
              (by exact (by decide : isDigitChar ',' = false))
            simp only [List.append_assoc, List.cons_append, List.nil_append, List.singleton_append] at hp
            rw [hp, optBindSome]
            simp only [pairFst, pairSnd]
            have hsk3 : skipWs (',' :: ('\n' :: (st ++ ('\n' :: (spaces ind₀ ++
                (rbr :: rest)))))) = ',' :: ('\n' :: (st ++ ('\n' :: (spaces ind₀ ++
                (rbr :: rest))))) := skipWs_not_ws _ _ (by decide)
            rw [hsk3]
            simp only [withHead_cons]
            rw [if_pos trivial]
            have hstlen : st.length ≤ f := by
              simp only [List.length_append, spaces_length, List.length_cons] at hlen
              omega
            have hq := (IH f (Nat.lt_succ_self f)).2.2 k' v' es' ind ind₀ st ['\n'] rest
              hdt hind hstlen
              (by intro c hc; rw [List.mem_singleton] at hc; subst hc; decide)
            simp only [List.append_assoc, List.cons_append, List.nil_append, List.singleton_append] at hq
            rw [hq, optMapSome]

/-! ## UTF-8 and hex round trips -/

theorem utf8EncodeChar_lt256 (c : Char) : ∀ b ∈ utf8EncodeChar c, b < 256 := by
  intro b hb
  have hv := char_valid c
  rw [utf8EncodeChar] at hb
  split_ifs at hb with h1 h2 h3 <;> simp at hb
  · omega
  · rcases hb with rfl | rfl <;> omega
  · rcases hb with rfl | rfl | rfl <;> omega
  · rcases hb with rfl | rfl | rfl | rfl <;> omega

theorem utf8EncodeChar_ne_nil (c : Char) : utf8EncodeChar c ≠ [] := by
  rw [utf8EncodeChar]
  split_ifs <;> simp

theorem utf8Encode_length (s : Str) : s.length ≤ (utf8Encode s).length := by
  induction s with
  | nil => simp [utf8Encode]
  | cons c s ih =>
    have h1 : 1 ≤ (utf8EncodeChar c).length := by
      cases h : utf8EncodeChar c with
      | nil => exact absurd h (utf8EncodeChar_ne_nil c)
      | cons x xs => simp
    simp only [utf8Encode, List.flatMap_cons, List.length_append, List.length_cons]
    simp only [utf8Encode] at ih
    omega

theorem utf8D1_encodeChar (c : Char) (X : List Nat) :
    utf8D1 (utf8EncodeChar c ++ X) = some (c.toNat, X) := by
  have hv := char_valid c
  rw [utf8EncodeChar]
  by_cases h1 : c.toNat < 0x80
  · rw [if_pos h1]
    simp only [List.cons_append, List.nil_append, utf8D1]
    rw [if_pos h1]
  by_cases h2 : c.toNat < 0x800
  · rw [if_neg h1, if_pos h2]
    simp only [List.cons_append, List.nil_append, utf8D1]
    rw [if_neg (by omega), if_neg (by omega), if_pos (by omega)]
    rw [utf8D2]
    rw [if_pos (by constructor <;> omega), if_pos (by omega)]
    rw [show (0xC0 + c.toNat / 64 - 0xC0) * 64 + (0x80 + c.toNat % 64 - 0x80) = c.toNat
      from by omega]
  by_cases h3 : c.toNat < 0x10000
  · rw [if_neg h1, if_neg h2, if_pos h3]
    simp only [List.cons_append, List.nil_append, utf8D1]
    rw [if_neg (by omega), if_neg (by omega), if_neg (by omega), if_pos (by omega)]
    rw [utf8D3]
    rw [if_pos (by refine ⟨⟨?_, ?_⟩, ?_, ?_⟩ <;> omega)]
    rw [show (0xE0 + c.toNat / 4096 - 0xE0) * 4096 + (0x80 + c.toNat / 64 % 64 - 0x80) * 64 +
      (0x80 + c.toNat % 64 - 0x80) = c.toNat from by omega]
    rw [if_pos (by constructor <;> omega)]
  · rw [if_neg h1, if_neg h2, if_neg h3]
    simp only [List.cons_append, List.nil_append, utf8D1]
    have hv4 : c.toNat < 0x110000 := by omega
    have hq : c.toNat / 262144 < 5 := by omega
    rw [if_neg (by omega), if_neg (by omega), if_neg (by omega), if_neg (by omega),
      if_pos (by omega)]
    rw [utf8D4]
    rw [if_pos (by refine ⟨⟨?_, ?_⟩, ⟨?_, ?_⟩, ?_, ?_⟩ <;> omega)]
    rw [show (0xF0 + c.toNat / 262144 - 0xF0) * 262144 + (0x80 + c.toNat / 4096 % 64 - 0x80) *
      4096 + (0x80 + c.toNat / 64 % 64 - 0x80) * 64 + (0x80 + c.toNat % 64 - 0x80) = c.toNat
      from by omega]
    rw [if_pos (by constructor <;> omega)]

theorem utf8DecodeF_encode : ∀ (s : Str) (fuel : Nat), s.length ≤ fuel →
    utf8DecodeF fuel (utf8Encode s) = some s := by
  intro s
  induction s with
  | nil => intro fuel _; cases fuel <;> rfl
  | cons c s ih =>
    intro fuel hf
    cases fuel with
    | zero => simp at hf
    | succ f =>
      have hne : utf8Encode (c :: s) ≠ [] := by
        simp only [utf8Encode, List.flatMap_cons]
        intro h
        rw [List.append_eq_nil] at h
        exact utf8EncodeChar_ne_nil c h.1
      have hstep : utf8DecodeF (f + 1) (utf8Encode (c :: s)) =
          (utf8D1 (utf8Encode (c :: s))).bind fun p =>
            (utf8DecodeF f p.2).map fun s' => Char.ofNat p.1 :: s' := by
        cases h : utf8Encode (c :: s) with
        | nil => exact absurd h hne
        | cons b bs => rfl
      rw [hstep, show utf8Encode (c :: s) = utf8EncodeChar c ++ utf8Encode s from by
        simp [utf8Encode], utf8D1_encodeChar c _, optBindSome]
      simp only [pairFst, pairSnd]
      rw [ih f (by simp only [List.length_cons] at hf; omega), optMapSome,
        Char.ofNat_toNat]

theorem utf8Decode_encode (s : Str) : utf8Decode (utf8Encode s) = some s := by
  rw [utf8Decode]
  exact utf8DecodeF_encode s _ (by simpa using utf8Encode_length s)

theorem hexDecode_bytesHex : ∀ bs : List Nat, (∀ b ∈ bs, b < 256) →
    hexDecode (bytesHex bs) = some bs := by
  intro bs
  induction bs with
  | nil => intro _; rfl
  | cons b bs ih =>
    intro hlt
    have hb : b < 256 := hlt b (List.mem_cons_self _ _)
    rw [show bytesHex (b :: bs) =
      hexDigitChar (b / 16) :: hexDigitChar (b % 16) :: bytesHex bs from by
        simp [bytesHex, byteHex]]
    rw [hexDecode, hexDigitVal_hexDigitChar (b / 16) (by omega), optBindSome,
      hexDigitVal_hexDigitChar (b % 16) (by omega), optBindSome,
      ih (fun e he => hlt e (List.mem_cons_of_mem _ he)), optMapSome,
      show b / 16 * 16 + b % 16 = b from by omega]

theorem utf8Encode_lt256 (s : Str) : ∀ b ∈ utf8Encode s, b < 256 := by
  intro b hb
  rw [utf8Encode, List.mem_flatMap] at hb
  obtain ⟨c, _, hbc⟩ := hb
  exact utf8EncodeChar_lt256 c b hbc

/-! ## json.loads inverts json.dumps -/

theorem loads_dumps (D : PyVal) (s : Str) (h : dumps 0 D = some s) : loads s = some D := by
  rw [loads]
  have hp := (read_dumps s.length).1 D 0 s [] [] h le_rfl
    (by intro c hc; simp at hc) (by exact trivial)
  simp only [List.nil_append, List.append_nil] at hp
  rw [hp, optBindSome]
  simp only [pairFst, pairSnd]
  rw [show skipWs ([] : Str) = [] from rfl, if_pos rfl]

/-! ## Serializability: dumps fails exactly on documents with an
unserializable leaf -/

theorem hasOther_str (s : Str) : hasOther (.str s) = false := rfl

theorem hasOther_int (n : Int) : hasOther (.int n) = false := rfl

theorem hasOther_bool (b : Bool) : hasOther (.bool b) = false := rfl

theorem hasOther_null : hasOther .null = false := rfl

theorem hasOther_other (nm : Str) : hasOther (.other nm) = true := rfl

theorem hasOther_list (l : PyList) : hasOther (.list l) = hasOtherL l := rfl

theorem hasOther_dict (d : PyDict) : hasOther (.dict d) = hasOtherD d := rfl

theorem hasOtherL_nil : hasOtherL .nil = false := rfl

theorem hasOtherL_cons (v : PyVal) (vs : PyList) :
    hasOtherL (.cons v vs) = (hasOther v || hasOtherL vs) := rfl

theorem hasOtherD_nil : hasOtherD .nil = false := rfl

theorem hasOtherD_cons (k : Str) (v : PyVal) (es : PyDict) :
    hasOtherD (.cons k v es) = (hasOther v || hasOtherD es) := rfl

theorem pweight_list (l : PyList) : pweight (.list l) = 1 + pweightL l := rfl

theorem pweight_dict (d : PyDict) : pweight (.dict d) = 1 + pweightD d := rfl

theorem pweightL_cons (v : PyVal) (vs : PyList) :
    pweightL (.cons v vs) = 1 + pweight v + pweightL vs := rfl

theorem pweightD_cons (k : Str) (v : PyVal) (es : PyDict) :
    pweightD (.cons k v es) = 1 + pweight v + pweightD es := rfl

theorem dumpsItems_nil (ind : Nat) : dumpsItems ind .nil = some [] := rfl

theorem dumpsEntries_nil (ind : Nat) : dumpsEntries ind .nil = some [] := rfl

/-- json.dumps returns None (raises) exactly when the document contains a
non-serializable leaf, jointly over the three mutual syntactic sorts. -/
theorem dumps_none_iff : ∀ n : Nat,
    (∀ v ind, pweight v ≤ n → (dumps ind v = none ↔ hasOther v = true)) ∧
    (∀ l ind, pweightL l ≤ n → (dumpsItems ind l = none ↔ hasOtherL l = true)) ∧
    (∀ d ind, pweightD d ≤ n → (dumpsEntries ind d = none ↔ hasOtherD d = true)) := by
  intro n
  induction n using Nat.strong_induction_on with
  | _ n IH =>
  refine ⟨?_, ?_, ?_⟩
  · intro v ind hw
    cases v with
    | str s => rw [dumps_str, hasOther_str]; simp
    | int m => rw [dumps_int, hasOther_int]; simp
    | bool b =>
      cases b
      · rw [dumps_false, hasOther_bool]; simp
      · rw [dumps_true, hasOther_bool]; simp
    | null => rw [dumps_null, hasOther_null]; simp
    | other nm => rw [dumps_other, hasOther_other]; simp
    | list l =>
      cases l with
      | nil => rw [dumps_list_nil, hasOther_list, hasOtherL_nil]; simp
      | cons v vs =>
        rw [pweight_list] at hw
        have hlt : pweightL (PyList.cons v vs) < n := by omega
        have hiff := (IH (pweightL (PyList.cons v vs)) hlt).2.1
          (PyList.cons v vs) (ind + 2) le_rfl
        rw [dumps_list_cons, hasOther_list, ← hiff, Option.map_eq_none']
    | dict d =>
      cases d with
      | nil => rw [dumps_dict_nil, hasOther_dict, hasOtherD_nil]; simp
      | cons k v es =>
        rw [pweight_dict] at hw
        have hlt : pweightD (PyDict.cons k v es) < n := by omega
        have hiff := (IH (pweightD (PyDict.cons k v es)) hlt).2.2
          (PyDict.cons k v es) (ind + 2) le_rfl
        rw [dumps_dict_cons, hasOther_dict, ← hiff, Option.map_eq_none']
  · intro l ind hw
    cases l with
    | nil => rw [dumpsItems_nil, hasOtherL_nil]; simp
    | cons v vs =>
      rw [pweightL_cons] at hw
      have hv : pweight v < n := by omega
      have hvs : pweightL vs < n := by omega
      have hiv := (IH (pweight v) hv).1 v ind le_rfl
      have hivs := (IH (pweightL vs) hvs).2.1 vs ind le_rfl
      cases vs with
      | nil =>
        rw [dumpsItems_one, hasOtherL_cons, hasOtherL_nil]
        cases hdv : dumps ind v with
        | none => rw [optBindNone]; simp [hiv.mp hdv]
        | some s =>
          have hfv : hasOther v = false := by
            cases hcv : hasOther v
            · rfl
            · exact absurd (hiv.mpr hcv) (by rw [hdv]; exact fun h => Option.noConfusion h)
          rw [optBindSome]; simp [hfv]
      | cons v' vs' =>
        rw [dumpsItems_more, hasOtherL_cons]
        cases hdv : dumps ind v with
        | none => rw [optBindNone]; simp [hiv.mp hdv]
        | some s =>
          have hfv : hasOther v = false := by
            cases hcv : hasOther v
            · rfl
            · exact absurd (hiv.mpr hcv) (by rw [hdv]; exact fun h => Option.noConfusion h)
          rw [optBindSome, Option.map_eq_none', hivs, hfv]; simp
  · intro d ind hw
    cases d with
    | nil => rw [dumpsEntries_nil, hasOtherD_nil]; simp
    | cons k v es =>
      rw [pweightD_cons] at hw
      have hv : pweight v < n := by omega
      have hves : pweightD es < n := by omega
      have hiv := (IH (pweight v) hv).1 v ind le_rfl
      have hives := (IH (pweightD es) hves).2.2 es ind le_rfl
      cases es with
      | nil =>
        rw [dumpsEntries_one, hasOtherD_cons, hasOtherD_nil]
        cases hdv : dumps ind v with
        | none => rw [optBindNone]; simp [hiv.mp hdv]
        | some s =>
          have hfv : hasOther v = false := by
            cases hcv : hasOther v
            · rfl
            · exact absurd (hiv.mpr hcv) (by rw [hdv]; exact fun h => Option.noConfusion h)
          rw [optBindSome]; simp [hfv]
      | cons k' v' es' =>
        rw [dumpsEntries_more, hasOtherD_cons]
        cases hdv : dumps ind v with
        | none => rw [optBindNone]; simp [hiv.mp hdv]
        | some s =>
          have hfv : hasOther v = false := by
            cases hcv : hasOther v
            · rfl
            · exact absurd (hiv.mpr hcv) (by rw [hdv]; exact fun h => Option.noConfusion h)
          rw [optBindSome, Option.map_eq_none', hives, hfv]; simp

/-! ## Claim theorems: the metadata encoder (C2, C3, C9) -/

/-- Claim C2: for every JSON-serializable document D — one json.dumps
accepts, producing text s — the metadata encoder returns exactly the
two-key mapping whose "" entry is the hex of the UTF-8 bytes of the literal
"tezos-storage:content" (the constant "74657a6f732d73746f726167653a636f6e74656e74",
independent of D) and whose "content" entry is the hex of the UTF-8 bytes
of s, the indented-JSON serialization of D; no other keys are present. -/
theorem c2_metadata_encode_two_keys (D : PyVal) (s : Str) (h : dumps 0 D = some s) :
    metadata_encode D = .ok
      [(([] : Str), strL "74657a6f732d73746f726167653a636f6e74656e74"),
       (contentKey, bytesHex (utf8Encode s))] := by
  rw [metadata_encode, h, optElimSome,
    show bytesHex (utf8Encode tezosStorageContent)
      = strL "74657a6f732d73746f726167653a636f6e74656e74" from by decide]

theorem c2_metadata_encode_two_keys_witness :
    dumps 0 PyVal.null = some (strL "null") ∧
    metadata_encode PyVal.null = .ok
      [(([] : Str), strL "74657a6f732d73746f726167653a636f6e74656e74"),
       (contentKey, bytesHex (utf8Encode (strL "null")))] :=
  ⟨by decide, c2_metadata_encode_two_keys PyVal.null (strL "null") (by decide)⟩

/-- Claim C3: for every document D the encoder accepts, hex-decoding the
"content" entry of the output and parsing the resulting bytes as JSON
(UTF-8 decode then json.loads) yields D unchanged. -/
theorem c3_metadata_roundtrip (D : PyVal) (out : List (Str × Str)) (h : Str)
    (henc : metadata_encode D = .ok out) (hlook : alookup out contentKey = some h) :
    (hexDecode h).bind loadsBytes = some D := by
  cases hd : dumps 0 D with
  | none =>
    rw [metadata_encode, hd, optElimNone] at henc
    exact Except.noConfusion henc
  | some s =>
    rw [metadata_encode, hd, optElimSome] at henc
    injection henc with h2
    subst h2
    rw [alookup, if_neg (by decide), alookup, if_pos rfl] at hlook
    injection hlook with h3
    subst h3
    rw [hexDecode_bytesHex _ (utf8Encode_lt256 s), optBindSome, loadsBytes,
      utf8Decode_encode, optBindSome]
    exact loads_dumps D s hd

theorem c3_metadata_roundtrip_witness :
    metadata_encode PyVal.null = .ok
      [(([] : Str), strL "74657a6f732d73746f726167653a636f6e74656e74"),
       (contentKey, strL "6e756c6c")] ∧
    alookup [(([] : Str), strL "74657a6f732d73746f726167653a636f6e74656e74"),
       (contentKey, strL "6e756c6c")] contentKey = some (strL "6e756c6c") ∧
    (hexDecode (strL "6e756c6c")).bind loadsBytes = some PyVal.null :=
  ⟨by decide, by decide,
    c3_metadata_roundtrip PyVal.null
      [(([] : Str), strL "74657a6f732d73746f726167653a636f6e74656e74"),
       (contentKey, strL "6e756c6c")]
      (strL "6e756c6c") (by decide) (by decide)⟩

/-- Claim C9: the metadata encoder fails with an EncodingError exactly when
the input document contains a leaf that is not JSON-serializable
text/number/bool/null (a PyVal.other leaf, per the hasOther predicate),
and it succeeds — returns some mapping — whenever no such leaf occurs. -/
theorem c9_metadata_encode_error_iff (D : PyVal) :
    (metadata_encode D = .error .notSerializable ↔ hasOther D = true) ∧
    (hasOther D = false → ∃ m, metadata_encode D = .ok m) := by
  have hiff := (dumps_none_iff (pweight D)).1 D 0 le_rfl
  constructor
  · rw [metadata_encode]
    cases hd : dumps 0 D with
    | none => rw [optElimNone]; simp [hiff.mp hd]
    | some s =>
      rw [optElimSome]
      have hfv : hasOther D = false := by
        cases hc : hasOther D
        · rfl
        · exact absurd (hiff.mpr hc) (by rw [hd]; exact fun h => Option.noConfusion h)
      simp [hfv]
  · intro hf
    rw [metadata_encode]
    cases hd : dumps 0 D with
    | none => simp [hiff.mp hd] at hf
    | some s => rw [optElimSome]; exact ⟨_, rfl⟩

theorem c9_metadata_encode_error_iff_witness :
    ((metadata_encode (PyVal.other []) = .error .notSerializable
        ↔ hasOther (PyVal.other []) = true) ∧
      (hasOther (PyVal.other []) = false
        → ∃ m, metadata_encode (PyVal.other []) = .ok m)) :=
  c9_metadata_encode_error_iff (PyVal.other [])

/-! ## Python dict semantics: lookup, insertion order, overwriting -/

theorem any_key_iff [DecidableEq α] (m : List (α × β)) (k : α) :
    (m.any fun p => decide (p.1 = k)) = true ↔ k ∈ m.map Prod.fst := by
  rw [List.any_eq_true]
  constructor
  · rintro ⟨p, hp, hd⟩
    rw [List.mem_map]
    exact ⟨p, hp, of_decide_eq_true hd⟩
  · intro h
    rcases List.mem_map.mp h with ⟨p, hp, he⟩
    exact ⟨p, hp, decide_eq_true he⟩

theorem alookup_append [DecidableEq α] (xs ys : List (α × β)) (k : α) :
    alookup (xs ++ ys) k =
      (match alookup xs k with
       | some v => some v
       | none => alookup ys k) := by
  induction xs with
  | nil => rfl
  | cons p ps ih =>
    rw [List.cons_append, alookup, alookup]
    by_cases h : p.1 = k
    · rw [if_pos h, if_pos h]
    · rw [if_neg h, if_neg h, ih]

theorem alookup_eq_none [DecidableEq α] (xs : List (α × β)) (k : α)
    (h : ∀ p ∈ xs, ¬ p.1 = k) : alookup xs k = none := by
  induction xs with
  | nil => rfl
  | cons p ps ih =>
    rw [alookup, if_neg (h p (List.mem_cons_self p ps))]
    exact ih fun q hq => h q (List.mem_cons_of_mem p hq)

theorem alookup_mem_keys [DecidableEq α] (xs : List (α × β)) (k : α) (v : β)
    (h : alookup xs k = some v) : k ∈ xs.map Prod.fst := by
  induction xs with
  | nil => exact Option.noConfusion h
  | cons p ps ih =>
    rw [alookup] at h
    by_cases hp : p.1 = k
    · rw [List.map_cons, ← hp]
      exact List.mem_cons_self _ _
    · rw [if_neg hp] at h
      exact List.mem_cons_of_mem _ (ih h)

theorem alookup_mapReplace [DecidableEq α] (m : List (α × β)) (k : α) (v : β)
    (hany : (m.any fun p => decide (p.1 = k)) = true) :
    alookup (m.map fun p => if p.1 = k then (k, v) else p) k = some v := by
  induction m with
  | nil => exact absurd hany (by simp)
  | cons p ps ih =>
    rw [List.map_cons, alookup]
    by_cases hp : p.1 = k
    · simp [hp]
    · rw [if_neg hp, if_neg hp]
      apply ih
      simpa [hp] using hany

theorem alookup_dictInsert_self [DecidableEq α] (m : List (α × β)) (k : α) (v : β) :
    alookup (dictInsert m k v) k = some v := by
  rw [dictInsert]
  by_cases hany : (m.any fun p => decide (p.1 = k)) = true
  · rw [if_pos hany]
    exact alookup_mapReplace m k v hany
  · rw [if_neg hany, alookup_append,
      alookup_eq_none m k fun p hp hpk =>
        hany (List.any_eq_true.mpr ⟨p, hp, decide_eq_true hpk⟩)]
    simp [alookup]

theorem alookup_dictInsert_ne [DecidableEq α] (m : List (α × β)) (k k' : α)
    (v : β) (h : ¬ k' = k) :
    alookup (dictInsert m k v) k' = alookup m k' := by
  rw [dictInsert]
  by_cases hany : (m.any fun p => decide (p.1 = k)) = true
  · rw [if_pos hany]
    clear hany
    induction m with
    | nil => rfl
    | cons p ps ih =>
      rw [List.map_cons, alookup, alookup]
      by_cases hp : p.1 = k
      · rw [if_pos hp]
        rw [if_neg (show ¬ ((k, v) : α × β).1 = k' from fun hh => h hh.symm)]
        rw [if_neg (show ¬ p.1 = k' from fun hh => h ((hp.symm.trans hh).symm))]
        exact ih
      · rw [if_neg hp]
        by_cases hpk : p.1 = k'
        · rw [if_pos hpk, if_pos hpk]
        · rw [if_neg hpk, if_neg hpk]
          exact ih
  · rw [if_neg hany, alookup_append]
    cases hl : alookup m k' with
    | some w => rfl
    | none =>
      show alookup [(k, v)] k' = none
      rw [alookup, if_neg (show ¬ ((k, v) : α × β).1 = k' from fun hh => h hh.symm)]
      rfl

theorem alookup_foldl_dictInsert [DecidableEq α] :
    ∀ (l acc : List (α × β)) (k : α),
    alookup (l.foldl (fun m p => dictInsert m p.1 p.2) acc) k =
      (match alookup l.reverse k with
       | some v => some v
       | none => alookup acc k) := by
  intro l
  induction l with
  | nil => intro acc k; rfl
  | cons p ps ih =>
    intro acc k
    rw [List.foldl_cons, ih, List.reverse_cons, alookup_append]
    cases hl : alookup ps.reverse k with
    | some w => rfl
    | none =>
      by_cases hp : p.1 = k
      · rw [show alookup (dictInsert acc p.1 p.2) k = some p.2 from
          hp ▸ alookup_dictInsert_self acc p.1 p.2]
        show some p.2 = (match alookup [p] k with
          | some v => some v
          | none => alookup acc k)
        rw [alookup, if_pos hp]
      · rw [alookup_dictInsert_ne acc p.1 k p.2 fun hh => hp hh.symm]
        show alookup acc k = (match alookup [p] k with
          | some v => some v
          | none => alookup acc k)
        rw [alookup, if_neg hp]
        rfl

theorem alookup_pyDictOf [DecidableEq α] (l : List (α × β)) (k : α) :
    alookup (pyDictOf l) k = alookup l.reverse k := by
  rw [pyDictOf, alookup_foldl_dictInsert]
  cases hl : alookup l.reverse k with
  | some w => rfl
  | none => rfl

theorem keys_dictInsert_of_mem [DecidableEq α] (m : List (α × β)) (k : α)
    (v : β) (hmem : k ∈ m.map Prod.fst) :
    (dictInsert m k v).map Prod.fst = m.map Prod.fst := by
  rw [dictInsert, if_pos ((any_key_iff m k).mpr hmem), List.map_map]
  apply List.map_congr_left
  intro p hp
  by_cases hq : p.1 = k
  · simp [hq]
  · simp [hq]

theorem keys_dictInsert_of_not_mem [DecidableEq α] (m : List (α × β)) (k : α)
    (v : β) (hmem : k ∉ m.map Prod.fst) :
    (dictInsert m k v).map Prod.fst = m.map Prod.fst ++ [k] := by
  rw [dictInsert, if_neg (fun h => hmem ((any_key_iff m k).mp h)), List.map_append]
  rfl

theorem nodup_keys_dictInsert [DecidableEq α] (m : List (α × β)) (k : α)
    (v : β) (h : (m.map Prod.fst).Nodup) :
    ((dictInsert m k v).map Prod.fst).Nodup := by
  by_cases hmem : k ∈ m.map Prod.fst
  · rw [keys_dictInsert_of_mem m k v hmem]
    exact h
  · rw [keys_dictInsert_of_not_mem m k v hmem, List.nodup_append]
    refine ⟨h, List.nodup_singleton k, ?_⟩
    intro a ha hb
    rw [List.mem_singleton] at hb
    exact hmem (hb ▸ ha)

theorem mem_keys_dictInsert_self [DecidableEq α] (m : List (α × β)) (k : α)
    (v : β) : k ∈ (dictInsert m k v).map Prod.fst := by
  by_cases hmem : k ∈ m.map Prod.fst
  · rw [keys_dictInsert_of_mem m k v hmem]
    exact hmem
  · rw [keys_dictInsert_of_not_mem m k v hmem]
    exact List.mem_append_right _ (List.mem_singleton_self k)

theorem mem_keys_dictInsert_of_mem [DecidableEq α] (m : List (α × β)) (k : α)
    (v : β) (a : α) (ha : a ∈ m.map Prod.fst) :
    a ∈ (dictInsert m k v).map Prod.fst := by
  by_cases hmem : k ∈ m.map Prod.fst
  · rw [keys_dictInsert_of_mem m k v hmem]
    exact ha
  · rw [keys_dictInsert_of_not_mem m k v hmem]
    exact List.mem_append_left _ ha

theorem nodup_keys_foldl [DecidableEq α] :
    ∀ (l acc : List (α × β)), (acc.map Prod.fst).Nodup →
      ((l.foldl (fun m p => dictInsert m p.1 p.2) acc).map Prod.fst).Nodup := by
  intro l
  induction l with
  | nil => intro acc h; exact h
  | cons p ps ih =>
    intro acc h
    rw [List.foldl_cons]
    exact ih _ (nodup_keys_dictInsert acc p.1 p.2 h)

theorem nodup_keys_pyDictOf [DecidableEq α] (l : List (α × β)) :
    ((pyDictOf l).map Prod.fst).Nodup :=
  nodup_keys_foldl l [] List.nodup_nil

theorem mem_keys_foldl_acc [DecidableEq α] :
    ∀ (l acc : List (α × β)) (a : α), a ∈ acc.map Prod.fst →
      a ∈ (l.foldl (fun m p => dictInsert m p.1 p.2) acc).map Prod.fst := by
  intro l
  induction l with
  | nil => intro acc a h; exact h
  | cons p ps ih =>
    intro acc a h
    rw [List.foldl_cons]
    exact ih _ a (mem_keys_dictInsert_of_mem acc p.1 p.2 a h)

theorem mem_keys_foldl [DecidableEq α] :
    ∀ (l acc : List (α × β)) (a : α) (b : β), (a, b) ∈ l →
      a ∈ (l.foldl (fun m p => dictInsert m p.1 p.2) acc).map Prod.fst := by
  intro l
  induction l with
  | nil => intro acc a b h; exact absurd h (List.not_mem_nil _)
  | cons p ps ih =>
    intro acc a b h
    rw [List.foldl_cons]
    rcases List.mem_cons.mp h with he | ht
    · cases he.symm
      exact mem_keys_foldl_acc ps _ a (mem_keys_dictInsert_self acc a b)
    · exact ih _ a b ht

theorem countP_keys_nodup [DecidableEq α] (xs : List (α × β)) (k : α)
    (hnd : (xs.map Prod.fst).Nodup) (hmem : k ∈ xs.map Prod.fst) :
    (xs.countP fun p => decide (p.1 = k)) = 1 := by
  induction xs with
  | nil => exact absurd hmem (List.not_mem_nil k)
  | cons p ps ih =>
    rw [List.map_cons, List.nodup_cons] at hnd
    rw [List.countP_cons]
    by_cases hp : p.1 = k
    · have h0 : (ps.countP fun q => decide (q.1 = k)) = 0 := by
        rw [List.countP_eq_zero]
        intro q hq hdq
        exact hnd.1 (by
          rw [hp, ← of_decide_eq_true hdq]
          exact List.mem_map_of_mem Prod.fst hq)
      rw [h0, if_pos (decide_eq_true hp)]
    · rw [if_neg fun hh => hp (of_decide_eq_true hh), Nat.add_zero]
      rcases List.mem_cons.mp hmem with he | ht
      · exact absurd he.symm hp
      · exact ih hnd.2 ht

theorem dictInsert_length_mem [DecidableEq α] (m : List (α × β)) (k : α)
    (v : β) (hmem : k ∈ m.map Prod.fst) :
    (dictInsert m k v).length = m.length := by
  rw [dictInsert, if_pos ((any_key_iff m k).mpr hmem), List.length_map]

theorem dictInsert_length_le [DecidableEq α] (m : List (α × β)) (k : α)
    (v : β) : (dictInsert m k v).length ≤ m.length + 1 := by
  rw [dictInsert]
  by_cases hany : (m.any fun p => decide (p.1 = k)) = true
  · rw [if_pos hany, List.length_map]
    omega
  · rw [if_neg hany, List.length_append]
    simp

theorem foldl_dictInsert_length [DecidableEq α] :
    ∀ (l acc : List (α × β)),
      (l.foldl (fun m p => dictInsert m p.1 p.2) acc).length
        ≤ acc.length + l.length := by
  intro l
  induction l with
  | nil => intro acc; simp
  | cons p ps ih =>
    intro acc
    rw [List.foldl_cons]
    have h1 := ih (dictInsert acc p.1 p.2)
    have h2 := dictInsert_length_le acc p.1 p.2
    rw [List.length_cons]
    omega

theorem get?_some_lt {l : List α} {n : Nat} {a : α}
    (h : l.get? n = some a) : n < l.length := by
  by_contra hc
  rw [List.get?_eq_none.mpr (by omega)] at h
  exact Option.noConfusion h

theorem alookup_reverse_of_last [DecidableEq α] (l : List (α × β)) (j : Nat)
    (k : α) (v : β) (hj : l.get? j = some (k, v))
    (hlast : ∀ (m : Nat) (q : α × β), j < m → l.get? m = some q → ¬ q.1 = k) :
    alookup l.reverse k = some v := by
  have hrev : l.reverse = (l.drop (j+1)).reverse ++ (l.take (j+1)).reverse := by
    rw [← List.reverse_append, List.take_append_drop]
  have hnone : alookup (l.drop (j+1)).reverse k = none := by
    apply alookup_eq_none
    intro p hp hpk
    rw [List.mem_reverse] at hp
    obtain ⟨n, hn⟩ := List.get?_of_mem hp
    rw [List.get?_drop] at hn
    exact hlast (j+1+n) p (by omega) hn hpk
  rw [hrev, alookup_append, hnone]
  have htake : l.take (j+1) = l.take j ++ [(k, v)] := by
    rw [List.take_succ, ← List.get?_eq_getElem?, hj]
    rfl
  rw [htake, List.reverse_append]
  show alookup ((k, v) :: (l.take j).reverse) k = some v
  rw [alookup, if_pos rfl]

theorem minterPairs_get? (f : Str) (L : List TokenType) (n : Nat) :
    (minterPairs f L).get? n
      = (L.get? n).map fun u => (u.eth_contract.drop 2, (f, n)) := by
  rw [minterPairs, List.get?_map, List.get?_enum]
  cases L.get? n <;> rfl

theorem minterPairs_length (f : Str) (L : List TokenType) :
    (minterPairs f L).length = L.length := by
  rw [minterPairs, List.length_map, List.enum_length]

/-! ## Claim theorems: positional indexing and overwriting (C4, C10) -/

/-- Claim C4: for every token list L and position i holding spec v, the
index assigned to v is i in all three mappings: the FA2 token_metadata
entry at position i is keyed i with token_id i (whatever the spec
contents), the token_total_supply entry at position i is (i, 0), and —
when the stripped eth_contract keys are distinct — the minter tokens dict
sends v's stripped key to (fa2 address, i).  All indexes are the
enumerate position, so reordering L changes which index a spec gets. -/
theorem c4_positional_index (L : List TokenType) (f : Str) (i : Nat)
    (v : TokenType) (hv : L.get? i = some v)
    (hnd : (L.map fun u => u.eth_contract.drop 2).Nodup) :
    (fa2_token_metadata L).get? i = some (i,
      { token_id := i,
        extras := { decimals := strHex (intRepr v.decimals),
                    eth_contract := strHex v.eth_contract,
                    eth_symbol := strHex v.eth_symbol,
                    name := strHex v.name,
                    symbol := strHex v.symbol } }) ∧
    (fa2_token_total_supply L).get? i = some (i, 0) ∧
    alookup (minter_token_metadata f L) (v.eth_contract.drop 2)
      = some (f, i) := by
  refine ⟨?_, ?_, ?_⟩
  · rw [fa2_token_metadata, List.get?_map, List.get?_enum, hv]; rfl
  · rw [fa2_token_total_supply, List.get?_map, List.get?_enum, hv]; rfl
  · rw [show minter_token_metadata f L = pyDictOf (minterPairs f L) from rfl,
      alookup_pyDictOf]
    apply alookup_reverse_of_last (minterPairs f L) i _ _
      (by rw [minterPairs_get?, hv]; rfl)
    intro m q hm hq hqk
    rw [minterPairs_get?] at hq
    cases he : L.get? m with
    | none => rw [he, optMapNone] at hq; exact Option.noConfusion hq
    | some e =>
      rw [he, optMapSome] at hq
      injection hq with hq2
      rw [← hq2] at hqk
      have hgm : (L.map fun u => u.eth_contract.drop 2).get? m
          = some (v.eth_contract.drop 2) := by
        rw [List.get?_map, he, optMapSome]
        exact congrArg some hqk
      have hgi : (L.map fun u => u.eth_contract.drop 2).get? i
          = some (v.eth_contract.drop 2) := by
        rw [List.get?_map, hv, optMapSome]
      have hmlen : m < (L.map fun u => u.eth_contract.drop 2).length := by
        rw [List.length_map]
        exact get?_some_lt he
      have hmi : m = i := List.get?_inj hmlen hnd (hgm.trans hgi.symm)
      omega

theorem c4_positional_index_witness :
    [tokW, tokB].get? 0 = some tokW ∧
    ([tokW, tokB].map fun u => u.eth_contract.drop 2).Nodup ∧
    ((fa2_token_metadata [tokW, tokB]).get? 0 = some (0,
      { token_id := 0,
        extras := { decimals := strHex (intRepr tokW.decimals),
                    eth_contract := strHex tokW.eth_contract,
                    eth_symbol := strHex tokW.eth_symbol,
                    name := strHex tokW.name,
                    symbol := strHex tokW.symbol } }) ∧
    (fa2_token_total_supply [tokW, tokB]).get? 0 = some (0, 0) ∧
    alookup (minter_token_metadata (strL "F") [tokW, tokB])
      (tokW.eth_contract.drop 2) = some (strL "F", 0)) :=
  ⟨by decide, by decide,
    c4_positional_index [tokW, tokB] (strL "F") 0 tokW (by decide) (by decide)⟩

/-- Claim C10: when two specs at positions i < j share the same stripped
eth_contract key and j is the last position carrying that key, the minter
tokens dict maps the key to (fa2 address, j) — the later spec silently
overwrites the earlier one — the key occurs exactly once in the dict, and
the dict has strictly fewer entries than the input list has elements. -/
theorem c10_minter_tokens_overwrite (L : List TokenType) (f : Str)
    (i j : Nat) (vi vj : TokenType) (hij : i < j)
    (hvi : L.get? i = some vi) (hvj : L.get? j = some vj)
    (hkey : vi.eth_contract.drop 2 = vj.eth_contract.drop 2)
    (hlast : ∀ (m : Nat) (e : TokenType), j < m → L.get? m = some e →
        ¬ e.eth_contract.drop 2 = vj.eth_contract.drop 2) :
    alookup (minter_token_metadata f L) (vj.eth_contract.drop 2)
      = some (f, j) ∧
    ((minter_token_metadata f L).countP
        fun p => decide (p.1 = vj.eth_contract.drop 2)) = 1 ∧
    (minter_token_metadata f L).length < L.length := by
  have hjlen : j < L.length := get?_some_lt hvj
  have hplen : (minterPairs f L).length = L.length := minterPairs_length f L
  have hpj : (minterPairs f L).get? j
      = some (vj.eth_contract.drop 2, (f, j)) := by
    rw [minterPairs_get?, hvj]; rfl
  have hpi : (minterPairs f L).get? i
      = some (vj.eth_contract.drop 2, (f, i)) := by
    rw [minterPairs_get?, hvi, optMapSome, hkey]
  have h1 : alookup (minter_token_metadata f L) (vj.eth_contract.drop 2)
      = some (f, j) := by
    rw [show minter_token_metadata f L = pyDictOf (minterPairs f L) from rfl,
      alookup_pyDictOf]
    apply alookup_reverse_of_last (minterPairs f L) j _ _ hpj
    intro m q hm hq hqk
    rw [minterPairs_get?] at hq
    cases he : L.get? m with
    | none => rw [he, optMapNone] at hq; exact Option.noConfusion hq
    | some e =>
      rw [he, optMapSome] at hq
      injection hq with hq2
      rw [← hq2] at hqk
      exact hlast m e hm he hqk
  refine ⟨h1, ?_, ?_⟩
  · exact countP_keys_nodup (minter_token_metadata f L) _
      (nodup_keys_pyDictOf (minterPairs f L))
      (alookup_mem_keys _ _ _ h1)
  · have hsplit : minterPairs f L
        = ((minterPairs f L).take j ++ [(vj.eth_contract.drop 2, (f, j))])
          ++ (minterPairs f L).drop (j+1) := by
      conv_lhs => rw [← List.take_append_drop (j+1) (minterPairs f L)]
      congr 1
      rw [List.take_succ, ← List.get?_eq_getElem?, hpj]
      rfl
    have hlen1 : (((minterPairs f L).take j).foldl
        (fun m p => dictInsert m p.1 p.2)
        ([] : List (Str × (Str × Nat)))).length ≤ j := by
      have hb := foldl_dictInsert_length ((minterPairs f L).take j)
        ([] : List (Str × (Str × Nat)))
      have hmin : ((minterPairs f L).take j).length = j := by
        rw [List.length_take, hplen]
        omega
      rw [hmin] at hb
      simpa using hb
    have hmemk : vj.eth_contract.drop 2
        ∈ (((minterPairs f L).take j).foldl (fun m p => dictInsert m p.1 p.2)
            ([] : List (Str × (Str × Nat)))).map Prod.fst := by
      apply mem_keys_foldl _ _ _ (f, i)
      have hti : ((minterPairs f L).take j).get? i
          = some (vj.eth_contract.drop 2, (f, i)) := by
        rw [List.get?_take hij, hpi]
      exact List.get?_mem hti
    have hl2 : (dictInsert
        (((minterPairs f L).take j).foldl (fun m p => dictInsert m p.1 p.2)
          ([] : List (Str × (Str × Nat))))
        (vj.eth_contract.drop 2) (f, j)).length ≤ j := by
      rw [dictInsert_length_mem _ _ _ hmemk]
      exact hlen1
    have hl3 := foldl_dictInsert_length ((minterPairs f L).drop (j+1))
      (dictInsert
        (((minterPairs f L).take j).foldl (fun m p => dictInsert m p.1 p.2)
          ([] : List (Str × (Str × Nat))))
        (vj.eth_contract.drop 2) (f, j))
    have hdlen : ((minterPairs f L).drop (j+1)).length = L.length - (j+1) := by
      rw [List.length_drop, hplen]
    have heq : minter_token_metadata f L
        = ((minterPairs f L).drop (j+1)).foldl (fun m p => dictInsert m p.1 p.2)
            (dictInsert
              (((minterPairs f L).take j).foldl (fun m p => dictInsert m p.1 p.2)
                ([] : List (Str × (Str × Nat))))
              (vj.eth_contract.drop 2) (f, j)) := by
      rw [show minter_token_metadata f L = pyDictOf (minterPairs f L) from rfl,
        pyDictOf]
      conv_lhs => rw [hsplit]
      rw [List.foldl_append, List.foldl_append]
      simp only [List.foldl_cons, List.foldl_nil]
    rw [heq]
    omega

theorem c10_minter_tokens_overwrite_witness :
    0 < 1 ∧
    [tokW, tokDup].get? 0 = some tokW ∧
    [tokW, tokDup].get? 1 = some tokDup ∧
    tokW.eth_contract.drop 2 = tokDup.eth_contract.drop 2 ∧
    (alookup (minter_token_metadata (strL "F") [tokW, tokDup])
        (tokDup.eth_contract.drop 2) = some (strL "F", 1) ∧
      ((minter_token_metadata (strL "F") [tokW, tokDup]).countP
          fun p => decide (p.1 = tokDup.eth_contract.drop 2)) = 1 ∧
      (minter_token_metadata (strL "F") [tokW, tokDup]).length
        < [tokW, tokDup].length) :=
  ⟨by decide, by decide, by decide, by decide,
    c10_minter_tokens_overwrite [tokW, tokDup] (strL "F") 0 1 tokW tokDup
      (by decide) (by decide) (by decide) (by decide)
      (fun m e hm hq => by
        rw [List.get?_eq_none.mpr
          (by simp only [List.length_cons, List.length_nil]; omega)] at hq
        exact Option.noConfusion hq)⟩

/-! ## Claim theorems: the storage builders (C5, C6, C7) -/

/-- Claim C7: for every signer mapping S and threshold t ≥ 1 the quorum
storage builder returns admin = caller pkh, threshold = t and signers = S
exactly — nothing added, removed, reordered or modified, and no validation
of t against the size of S (the theorem holds for every S and t ≥ 1,
including t larger than S's size). -/
theorem c7_quorum_storage_exact (pkh : Str) (S : List (Str × Str)) (t : Nat)
    (ht : 1 ≤ t) (m : List (Str × Str))
    (hm : metadata_encode quorumDoc = .ok m) :
    quorum_storage pkh S t = .ok
      { admin := pkh, threshold := t, signers := S, metadata := m } := by
  rw [quorum_storage, hm, exceptMapOk]

theorem c7_quorum_storage_exact_witness :
    1 ≤ 5 ∧ metadata_encode quorumDoc = .ok (metaOf quorumDoc) ∧
    quorum_storage [] [] 5 = .ok
      { admin := [], threshold := 5, signers := [],
        metadata := metaOf quorumDoc } :=
  ⟨by decide, by decide,
    c7_quorum_storage_exact [] [] 5 (by decide) (metaOf quorumDoc) (by decide)⟩

/-- Claim C5: for every caller pkh, quorum address q, token list L and FA2
address f, the minter storage builder returns exactly the record with
admin {administrator := pkh, signer := q, paused := false}, assets whose
tokens dict is built from each spec's eth_contract with its leading two
characters stripped mapped to (f, index) and whose mints are empty,
governance {contract := pkh, fees_contract := pkh, wrapping_fees := 100,
unwrapping_fees := 100}, and the encoded metadata document; and stripping
turns an eth_contract of the form "0x" ++ s into the key s. -/
theorem c5_minter_storage_exact (pkh q : Str) (L : List TokenType) (f : Str)
    (m : List (Str × Str)) (v : TokenType) (s : Str)
    (hm : metadata_encode minterDoc = .ok m)
    (hv : v.eth_contract = '0' :: 'x' :: s) :
    minter_storage pkh q L f = .ok
      { admin := { administrator := pkh, signer := q, paused := false },
        assets := { tokens := pyDictOf (L.enum.map fun p =>
                      (p.2.eth_contract.drop 2, (f, p.1))),
                    mints := [] },
        governance := { contract := pkh, fees_contract := pkh,
                        wrapping_fees := 100, unwrapping_fees := 100 },
        metadata := m } ∧
    v.eth_contract.drop 2 = s := by
  constructor
  · rw [minter_storage, hm, exceptMapOk]
    rfl
  · rw [hv]; rfl

theorem c5_minter_storage_exact_witness :
    metadata_encode minterDoc = .ok (metaOf minterDoc) ∧
    tokW.eth_contract = '0' :: 'x' :: strL "ABC" ∧
    (minter_storage [] (strL "Q") [tokW] (strL "F") = .ok
      { admin := { administrator := [], signer := strL "Q", paused := false },
        assets := { tokens := pyDictOf ([tokW].enum.map fun p =>
                      (p.2.eth_contract.drop 2, (strL "F", p.1))),
                    mints := [] },
        governance := { contract := [], fees_contract := [],
                        wrapping_fees := 100, unwrapping_fees := 100 },
        metadata := metaOf minterDoc } ∧
      tokW.eth_contract.drop 2 = strL "ABC") :=
  ⟨by decide, by decide,
    c5_minter_storage_exact [] (strL "Q") [tokW] (strL "F") (metaOf minterDoc)
      tokW (strL "ABC") (by decide) (by decide)⟩

/-- Claim C6: for every token list L the FA2 storage builder returns admin
{admin := caller pkh, pending_admin := none, paused := empty}, empty ledger
and operators, token_metadata and token_total_supply dicts with exactly one
entry per element of L (their lengths equal L's), and at every position i
holding a spec v the token_metadata entry is keyed i with token_id i and
the five spec fields hex-encoded, while token_total_supply sends i to 0. -/
theorem c6_fa2_storage_exact (pkh : Str) (views : PyList) (L : List TokenType)
    (m : List (Str × Str)) (i : Nat) (v : TokenType)
    (hm : metadata_encode (fa2Doc views) = .ok m)
    (hv : L.get? i = some v) :
    fa2_storage pkh views L = .ok
      { admin := { admin := pkh, pending_admin := none, paused := [] },
        assets := { ledger := [], operators := [],
                    token_metadata := fa2_token_metadata L,
                    token_total_supply := fa2_token_total_supply L },
        metadata := m } ∧
    (fa2_token_metadata L).length = L.length ∧
    (fa2_token_total_supply L).length = L.length ∧
    (fa2_token_metadata L).get? i = some (i,
      { token_id := i,
        extras := { decimals := strHex (intRepr v.decimals),
                    eth_contract := strHex v.eth_contract,
                    eth_symbol := strHex v.eth_symbol,
                    name := strHex v.name,
                    symbol := strHex v.symbol } }) ∧
    (fa2_token_total_supply L).get? i = some (i, 0) := by
  refine ⟨?_, ?_, ?_, ?_, ?_⟩
  · rw [fa2_storage, hm, exceptMapOk]
  · rw [fa2_token_metadata, List.length_map, List.enum_length]
  · rw [fa2_token_total_supply, List.length_map, List.enum_length]
  · rw [fa2_token_metadata, List.get?_map, List.get?_enum, hv]; rfl
  · rw [fa2_token_total_supply, List.get?_map, List.get?_enum, hv]; rfl

theorem c6_fa2_storage_exact_witness :
    metadata_encode (fa2Doc PyList.nil) = .ok (metaOf (fa2Doc PyList.nil)) ∧
    [tokW].get? 0 = some tokW ∧
    (fa2_storage [] PyList.nil [tokW] = .ok
      { admin := { admin := [], pending_admin := none, paused := [] },
        assets := { ledger := [], operators := [],
                    token_metadata := fa2_token_metadata [tokW],
                    token_total_supply := fa2_token_total_supply [tokW] },
        metadata := metaOf (fa2Doc PyList.nil) } ∧
      (fa2_token_metadata [tokW]).length = [tokW].length ∧
      (fa2_token_total_supply [tokW]).length = [tokW].length ∧
      (fa2_token_metadata [tokW]).get? 0 = some (0,
        { token_id := 0,
          extras := { decimals := strHex (intRepr tokW.decimals),
                      eth_contract := strHex tokW.eth_contract,
                      eth_symbol := strHex tokW.eth_symbol,
                      name := strHex tokW.name,
                      symbol := strHex tokW.symbol } }) ∧
      (fa2_token_total_supply [tokW]).get? 0 = some (0, 0)) :=
  ⟨by decide, by decide,
    c6_fa2_storage_exact [] PyList.nil [tokW] (metaOf (fa2Doc PyList.nil))
      0 tokW (by decide) (by decide)⟩

/-! ## Claim theorems: the deployment sequencer (C1, C8) -/

/-- Claim C1: when every step succeeds, run performs exactly the five steps
in the fixed order FA2 origination (with the FA2 storage built from the
token list), quorum origination (from signers and threshold), minter
origination (from the quorum address, the token list and the FA2 address),
FA2 admin change nominating the minter address, and minter admin
confirmation — each step's output feeding the next, with no branching, no
retry, and no reordering. -/
theorem c1_run_five_steps (o : Oracle) (pkh : Str) (views : PyList)
    (S : List (Str × Str)) (L : List TokenType) (t : Nat)
    (fs : Fa2Storage) (qs : QuorumStorage) (ms : MinterStorage) (a1 a2 a3 : Str)
    (hfs : fa2_storage pkh views L = .ok fs)
    (hf : o.fa2Result = .ok a1)
    (hqs : quorum_storage pkh S t = .ok qs)
    (hq : o.quorumResult = .ok a2)
    (hms : minter_storage pkh a2 L a1 = .ok ms)
    (hmi : o.minterResult = .ok a3)
    (hsa : o.setAdminResult = .ok ())
    (hc : o.confirmResult = .ok ()) :
    run o pkh views S L t =
      (⟨[.originateFa2 fs, .originateQuorum qs, .originateMinter ms,
          .setFa2Admin a1 a3, .confirmMinterAdmin a3 a1],
        some a1, some a2, some a3⟩, none) := by
  simp only [run, hfs, hf, hqs, hq, hms, hmi, hsa, hc]

theorem c1_run_five_steps_witness :
    fa2_storage [] PyList.nil [] = .ok fsW ∧
    quorum_storage [] [] 1 = .ok qsW ∧
    minter_storage [] (strL "Q") [] (strL "F") = .ok msW ∧
    run oW [] PyList.nil [] [] 1 =
      (⟨[.originateFa2 fsW, .originateQuorum qsW, .originateMinter msW,
          .setFa2Admin (strL "F") (strL "M"),
          .confirmMinterAdmin (strL "M") (strL "F")],
        some (strL "F"), some (strL "Q"), some (strL "M")⟩, none) :=
  ⟨by decide, by decide, by decide,
    c1_run_five_steps oW [] PyList.nil [] [] 1 fsW qsW msW
      (strL "F") (strL "Q") (strL "M")
      (by decide) rfl (by decide) rfl (by decide) rfl rfl rfl⟩

/-- Claim C8: when the minter origination (step 3) fails on the network,
the error propagates immediately: the run stops with exactly the three
origination events, the FA2 and quorum addresses already produced, no
minter address, and the run's event list never contains an FA2 admin
change or a minter admin confirmation — nothing is caught or retried. -/
theorem c8_run_abort_on_minter_failure (o : Oracle) (pkh : Str)
    (views : PyList) (S : List (Str × Str)) (L : List TokenType) (t : Nat)
    (fs : Fa2Storage) (qs : QuorumStorage) (ms : MinterStorage)
    (a1 a2 em : Str) (x y : Str)
    (hfs : fa2_storage pkh views L = .ok fs)
    (hf : o.fa2Result = .ok a1)
    (hqs : quorum_storage pkh S t = .ok qs)
    (hq : o.quorumResult = .ok a2)
    (hms : minter_storage pkh a2 L a1 = .ok ms)
    (hmi : o.minterResult = .error em) :
    run o pkh views S L t =
      (⟨[.originateFa2 fs, .originateQuorum qs, .originateMinter ms],
        some a1, some a2, none⟩, some (.network em)) ∧
    Event.setFa2Admin x y ∉ (run o pkh views S L t).1.events ∧
    Event.confirmMinterAdmin x y ∉ (run o pkh views S L t).1.events := by
  have h1 : run o pkh views S L t =
      (⟨[.originateFa2 fs, .originateQuorum qs, .originateMinter ms],
        some a1, some a2, none⟩, some (.network em)) := by
    simp only [run, hfs, hf, hqs, hq, hms, hmi]
  refine ⟨h1, ?_, ?_⟩
  · rw [h1]; simp
  · rw [h1]; simp

theorem c8_run_abort_on_minter_failure_witness :
    fa2_storage [] PyList.nil [] = .ok fsW ∧
    quorum_storage [] [] 1 = .ok qsW ∧
    minter_storage [] (strL "Q") [] (strL "F") = .ok msW ∧
    oNoMinter.minterResult = .error (strL "boom") ∧
    (run oNoMinter [] PyList.nil [] [] 1 =
      (⟨[.originateFa2 fsW, .originateQuorum qsW, .originateMinter msW],
        some (strL "F"), some (strL "Q"), none⟩,
        some (.network (strL "boom"))) ∧
    Event.setFa2Admin (strL "F") (strL "M")
      ∉ (run oNoMinter [] PyList.nil [] [] 1).1.events ∧
    Event.confirmMinterAdmin (strL "F") (strL "M")
      ∉ (run oNoMinter [] PyList.nil [] [] 1).1.events) :=
  ⟨by decide, by decide, by decide, rfl,
    c8_run_abort_on_minter_failure oNoMinter [] PyList.nil [] [] 1
      fsW qsW msW (strL "F") (strL "Q") (strL "boom") (strL "F") (strL "M")
      (by decide) rfl (by decide) rfl (by decide) rfl⟩

end WrapDeploy

